import Mathlib

/-!
# A verification of the book-checkout blockchain core

This file gives a shallow embedding, in Lean, of the hash-chain core of the
Go program `main.go`: block construction, SHA-256 hash derivation, chain
linkage validation, and durable save/load of the chain through a
write-temp/remove/rename sequence.  Machine words are modelled as `Nat`
with explicit reduction modulo `2^32`; Go's in-place pointer mutation is
modelled by explicit state passing; the filesystem is modelled as an
explicit record threaded through the persistence operations, with a fault
record selecting which I/O steps fail.
-/

set_option maxRecDepth 20000

namespace ChainSpec

/-! ## SHA-256 over byte lists (FIPS 180-4), words as `Nat` mod `2^32` -/

def mask32 : Nat := 4294967296

def add32 (x y : Nat) : Nat := (x + y) % mask32

def not32 (x : Nat) : Nat := Nat.xor x 4294967295

def rotr32 (x n : Nat) : Nat :=
  ((x >>> n) ||| (x <<< (32 - n))) % mask32

def bsig0 (x : Nat) : Nat := Nat.xor (rotr32 x 2) (Nat.xor (rotr32 x 13) (rotr32 x 22))
def bsig1 (x : Nat) : Nat := Nat.xor (rotr32 x 6) (Nat.xor (rotr32 x 11) (rotr32 x 25))
def ssig0 (x : Nat) : Nat := Nat.xor (rotr32 x 7) (Nat.xor (rotr32 x 18) (x >>> 3))
def ssig1 (x : Nat) : Nat := Nat.xor (rotr32 x 17) (Nat.xor (rotr32 x 19) (x >>> 10))

def chBits (x y z : Nat) : Nat := Nat.xor (Nat.land x y) (Nat.land (not32 x) z)
def majBits (x y z : Nat) : Nat :=
  Nat.xor (Nat.land x y) (Nat.xor (Nat.land x z) (Nat.land y z))

/-- The 64 SHA-256 round constants. -/
def shaK : List Nat :=
  [1116352408, 1899447441, 3049323471, 3921009573,
   961987163, 1508970993, 2453635748, 2870763221,
   3624381080, 310598401, 607225278, 1426881987,
   1925078388, 2162078206, 2614888103, 3248222580,
   3835390401, 4022224774, 264347078, 604807628,
   770255983, 1249150122, 1555081692, 1996064986,
   2554220882, 2821834349, 2952996808, 3210313671,
   3336571891, 3584528711, 113926993, 338241895,
   666307205, 773529912, 1294757372, 1396182291,
   1695183700, 1986661051, 2177026350, 2456956037,
   2730485921, 2820302411, 3259730800, 3345764771,
   3516065817, 3600352804, 4094571909, 275423344,
   430227734, 506948616, 659060556, 883997877,
   958139571, 1322822218, 1537002063, 1747873779,
   1955562222, 2024104815, 2227730452, 2361852424,
   2428436474, 2756734187, 3204031479, 3329325298]

/-- Big-endian serialization of a 32-bit word to 4 bytes. -/
def u32be (x : Nat) : List Nat :=
  [x / 16777216 % 256, x / 65536 % 256, x / 256 % 256, x % 256]

/-- Big-endian serialization of a 64-bit word to 8 bytes. -/
def u64be (x : Nat) : List Nat :=
  [x / 72057594037927936 % 256, x / 281474976710656 % 256,
   x / 1099511627776 % 256, x / 4294967296 % 256,
   x / 16777216 % 256, x / 65536 % 256, x / 256 % 256, x % 256]

/-- SHA-256 padding: append `0x80`, zero-pad to 56 mod 64, then the 64-bit
big-endian bit length. -/
def shaPad (msg : List Nat) : List Nat :=
  msg ++ 0x80 :: List.replicate ((119 - msg.length % 64) % 64) 0
      ++ u64be ((msg.length * 8) % 18446744073709551616)

/-- Combine bytes into big-endian 32-bit words, four at a time. -/
def toWords : List Nat → List Nat
  | b0 :: b1 :: b2 :: b3 :: rest =>
      (b0 * 16777216 + b1 * 65536 + b2 * 256 + b3) :: toWords rest
  | _ => []

/-- Extend a 16-word message schedule by `k` further words. -/
def extendW : Nat → List Nat → List Nat
  | 0, w => w
  | k + 1, w =>
      extendW k (w ++ [add32 (add32 (ssig1 (w.getD (w.length - 2) 0))
                                    (w.getD (w.length - 7) 0))
                       (add32 (ssig0 (w.getD (w.length - 15) 0))
                              (w.getD (w.length - 16) 0))])

/-- The eight-word SHA-256 working state. -/
structure Words8 where
  a : Nat
  b : Nat
  c : Nat
  d : Nat
  e : Nat
  f : Nat
  g : Nat
  h : Nat
deriving DecidableEq, Repr

/-- One SHA-256 round, consuming one `(K, W)` pair. -/
def shaRound (st : Words8) (kw : Nat × Nat) : Words8 :=
  let t1 := add32 st.h (add32 (bsig1 st.e)
              (add32 (chBits st.e st.f st.g) (add32 kw.1 kw.2)))
  let t2 := add32 (bsig0 st.a) (majBits st.a st.b st.c)
  ⟨add32 t1 t2, st.a, st.b, st.c, add32 st.d t1, st.e, st.f, st.g⟩

/-- Compress one 64-byte block into the chaining state. -/
def compressBlock (st : Words8) (block : List Nat) : Words8 :=
  let w := extendW 48 (toWords block)
  let fin := (shaK.zip w).foldl shaRound st
  ⟨add32 st.a fin.a, add32 st.b fin.b, add32 st.c fin.c, add32 st.d fin.d,
   add32 st.e fin.e, add32 st.f fin.f, add32 st.g fin.g, add32 st.h fin.h⟩

/-- Split a byte list into 64-byte chunks, `n` of them; the padded message
has length exactly `64 * n`. -/
def chunks64 : Nat → List Nat → List (List Nat)
  | 0, _ => []
  | n + 1, l => l.take 64 :: chunks64 n (l.drop 64)

/-- The 32-byte SHA-256 digest of a byte list. -/
def sha256bytes (msg : List Nat) : List Nat :=
  let st0 : Words8 := ⟨1779033703, 3144134277, 1013904242, 2773480762,
                       1359893119, 2600822924, 528734635, 1541459225⟩
  let padded := shaPad msg
  let fin := (chunks64 (padded.length / 64) padded).foldl compressBlock st0
  u32be fin.a ++ u32be fin.b ++ u32be fin.c ++ u32be fin.d ++
  u32be fin.e ++ u32be fin.f ++ u32be fin.g ++ u32be fin.h

/-- The sixteen lowercase hexadecimal digits, as emitted by Go's
`hex.EncodeToString`. -/
def hexDigitChar (n : Nat) : Char :=
  match n with
  | 0 => '0' | 1 => '1' | 2 => '2' | 3 => '3' | 4 => '4' | 5 => '5'
  | 6 => '6' | 7 => '7' | 8 => '8' | 9 => '9' | 10 => 'a' | 11 => 'b'
  | 12 => 'c' | 13 => 'd' | 14 => 'e' | _ => 'f'

/-- Lowercase hex encoding of a byte list, two digits per byte. -/
def hexEncode (l : List Nat) : List Char :=
  l.flatMap (fun b => [hexDigitChar (b / 16 % 16), hexDigitChar (b % 16)])

/-- UTF-8 encoding of one Unicode scalar value. -/
def utf8Bytes (c : Char) : List Nat :=
  let n := c.toNat
  if n < 128 then [n]
  else if n < 2048 then [192 + n / 64, 128 + n % 64]
  else if n < 65536 then [224 + n / 4096, 128 + n / 64 % 64, 128 + n % 64]
  else [240 + n / 262144, 128 + n / 4096 % 64, 128 + n / 64 % 64, 128 + n % 64]

/-- The UTF-8 bytes of a string, as Go's `[]byte(s)` produces. -/
def strBytes (s : String) : List Nat := s.data.flatMap utf8Bytes

/-- Lowercase-hex SHA-256 of a string's UTF-8 bytes: the composition of
`sha256.Sum` and `hex.EncodeToString` used by the program. -/
def sha256hex (s : String) : String :=
  ⟨hexEncode (sha256bytes (strBytes s))⟩

example :
    sha256hex "abc" =
      "ba7816bf8f01cfea414140de5dae2223b00361a396177a9cb410ff61f20015ad" := by
  decide

/-! ## Decimal formatting, as Go's `%d` verb and JSON integers produce -/

def digitChar10 (n : Nat) : Char :=
  match n with
  | 0 => '0' | 1 => '1' | 2 => '2' | 3 => '3' | 4 => '4'
  | 5 => '5' | 6 => '6' | 7 => '7' | 8 => '8' | _ => '9'

/-- Decimal digits of `n`, least significant first; the first argument is
fuel, sufficient whenever it is at least `n`. -/
def natDigitsRev : Nat → Nat → List Char
  | 0, _ => []
  | fuel + 1, n =>
      if n < 10 then [digitChar10 n]
      else digitChar10 (n % 10) :: natDigitsRev fuel (n / 10)

/-- Decimal representation of a natural number. -/
def natToChars (n : Nat) : List Char := (natDigitsRev (n + 1) n).reverse

/-- Decimal representation of an integer, with a leading minus sign when
negative, exactly as Go's `%d`. -/
def intToChars (i : Int) : List Char :=
  if i < 0 then '-' :: natToChars (-i).toNat else natToChars i.toNat

/-! ## JSON values and the Go `encoding/json` textual form

Go's `json.Marshal` emits objects with struct fields in declaration order,
compact (no whitespace), with `<`, `>`, `&`, the control characters and the
line separators escaped in strings.  `json.Unmarshal` parses standard JSON
with case-insensitive field matching.  Indentation added by the file
encoder is whitespace only, which the parser skips, so values are rendered
compactly here. -/

inductive Jval where
  | jstr : String → Jval
  | jint : Int → Jval
  | jbool : Bool → Jval
  | jnull : Jval
  | jarr : List Jval → Jval
  | jobj : List (String × Jval) → Jval

/-- A `\uXXXX` escape for a code point below `0x10000`. -/
def uEscape (n : Nat) : List Char :=
  ['\\', 'u', hexDigitChar (n / 4096 % 16), hexDigitChar (n / 256 % 16),
   hexDigitChar (n / 16 % 16), hexDigitChar (n % 16)]

/-- Escaping of one character inside a JSON string, following Go's
`encoding/json` encoder with HTML escaping on (its default). -/
def escapeChar (c : Char) : List Char :=
  if c = '"' then ['\\', '"']
  else if c = '\\' then ['\\', '\\']
  else if c = '\n' then ['\\', 'n']
  else if c = '\r' then ['\\', 'r']
  else if c = '\t' then ['\\', 't']
  else if c.toNat < 32 then uEscape c.toNat
  else if c = '<' ∨ c = '>' ∨ c = '&' then uEscape c.toNat
  else if c.toNat = 8232 ∨ c.toNat = 8233 then uEscape c.toNat
  else [c]

/-- A quoted, escaped JSON string literal. -/
def renderString (s : String) : List Char :=
  '"' :: s.data.flatMap escapeChar ++ ['"']

mutual

/-- Compact rendering of a JSON value. -/
def renderVal : Jval → List Char
  | .jstr s => renderString s
  | .jint n => intToChars n
  | .jbool b => if b then ['t', 'r', 'u', 'e'] else ['f', 'a', 'l', 's', 'e']
  | .jnull => ['n', 'u', 'l', 'l']
  | .jarr l => '[' :: (renderElems l ++ [']'])
  | .jobj l => '\x7b' :: (renderMembers l ++ ['\x7d'])

/-- Comma-separated rendering of array elements. -/
def renderElems : List Jval → List Char
  | [] => []
  | [x] => renderVal x
  | x :: y :: xs => renderVal x ++ ',' :: renderElems (y :: xs)

/-- Comma-separated rendering of object members. -/
def renderMembers : List (String × Jval) → List Char
  | [] => []
  | [(k, v)] => renderString k ++ ':' :: renderVal v
  | (k, v) :: m :: xs => renderString k ++ ':' :: renderVal v ++ ',' :: renderMembers (m :: xs)

end

/-! ## JSON parsing, as Go's `json.Unmarshal` lexes input

The parser is recursive descent over `List Char` with a fuel argument on
the mutually recursive value/array/object parsers; fuel `length + 1` is
always sufficient (proved below), so the top-level entry point uses it. -/

def isWs (c : Char) : Bool :=
  c = ' ' ∨ c = '\t' ∨ c = '\n' ∨ c = '\r'

def skipWs : List Char → List Char
  | [] => []
  | c :: cs => if isWs c then skipWs cs else c :: cs

def isDigit (c : Char) : Bool := '0' ≤ c ∧ c ≤ '9'

def hexDigitVal (c : Char) : Option Nat :=
  if '0' ≤ c ∧ c ≤ '9' then some (c.toNat - 48)
  else if 'a' ≤ c ∧ c ≤ 'f' then some (c.toNat - 87)
  else if 'A' ≤ c ∧ c ≤ 'F' then some (c.toNat - 55)
  else none

def hex4 (a b c d : Char) : Option Nat :=
  match hexDigitVal a, hexDigitVal b, hexDigitVal c, hexDigitVal d with
  | some w, some x, some y, some z => some (w * 4096 + x * 256 + y * 16 + z)
  | _, _, _, _ => none

/-- The body of a JSON string after the opening quote: unescape until the
closing quote, rejecting raw control characters and unknown escapes, and
decoding `\uXXXX` with Go's surrogate-pair handling (a lone surrogate
becomes U+FFFD).  Fuel `length + 1` always suffices, as every step consumes
at least one character. -/
def parseStringBody : Nat → List Char → Option (List Char × List Char)
  | 0, _ => none
  | _ + 1, [] => none
  | fuel + 1, c :: cs =>
    if c = '"' then some ([], cs)
    else if c = '\\' then
      match cs with
      | [] => none
      | e :: cs2 =>
        if e = 'u' then
          match cs2 with
          | h1 :: h2 :: h3 :: h4 :: cs3 =>
            match hex4 h1 h2 h3 h4 with
            | none => none
            | some n =>
              if n < 55296 ∨ 57343 < n then
                (parseStringBody fuel cs3).map
                  (fun r => (Char.ofNat n :: r.1, r.2))
              else if n < 56320 then
                match cs3 with
                | '\\' :: 'u' :: g1 :: g2 :: g3 :: g4 :: cs4 =>
                  match hex4 g1 g2 g3 g4 with
                  | none => none
                  | some m =>
                    if 56320 ≤ m ∧ m ≤ 57343 then
                      (parseStringBody fuel cs4).map (fun r =>
                        (Char.ofNat (65536 + (n - 55296) * 1024 + (m - 56320))
                          :: r.1, r.2))
                    else
                      (parseStringBody fuel cs3).map
                        (fun r => (Char.ofNat 65533 :: r.1, r.2))
                | _ =>
                  (parseStringBody fuel cs3).map
                    (fun r => (Char.ofNat 65533 :: r.1, r.2))
              else
                (parseStringBody fuel cs3).map
                  (fun r => (Char.ofNat 65533 :: r.1, r.2))
          | _ => none
        else if e = '"' then
          (parseStringBody fuel cs2).map (fun r => ('"' :: r.1, r.2))
        else if e = '\\' then
          (parseStringBody fuel cs2).map (fun r => ('\\' :: r.1, r.2))
        else if e = '/' then
          (parseStringBody fuel cs2).map (fun r => ('/' :: r.1, r.2))
        else if e = 'b' then
          (parseStringBody fuel cs2).map (fun r => (Char.ofNat 8 :: r.1, r.2))
        else if e = 'f' then
          (parseStringBody fuel cs2).map (fun r => (Char.ofNat 12 :: r.1, r.2))
        else if e = 'n' then
          (parseStringBody fuel cs2).map (fun r => ('\n' :: r.1, r.2))
        else if e = 'r' then
          (parseStringBody fuel cs2).map (fun r => ('\r' :: r.1, r.2))
        else if e = 't' then
          (parseStringBody fuel cs2).map (fun r => ('\t' :: r.1, r.2))
        else none
    else if c.toNat < 32 then none
    else (parseStringBody fuel cs).map (fun r => (c :: r.1, r.2))

/-- Consume a run of decimal digits, accumulating their value. -/
def parseDigits : List Char → Nat → Nat × List Char
  | [], acc => (acc, [])
  | c :: cs, acc =>
    if isDigit c then parseDigits cs (acc * 10 + (c.toNat - 48))
    else (acc, c :: cs)

/-- A JSON natural-number literal: one or more digits, no leading zero. -/
def parseNat : List Char → Option (Nat × List Char)
  | [] => none
  | c :: cs =>
    if c = '0' then
      match cs with
      | d :: ds => if isDigit d then none else some (0, d :: ds)
      | [] => some (0, [])
    else if isDigit c then some (parseDigits cs (c.toNat - 48))
    else none

/-- A JSON integer literal with optional minus sign. -/
def parseNumber (s : List Char) : Option (Jval × List Char) :=
  match s with
  | [] => none
  | c :: cs =>
    if c = '-' then (parseNat cs).map (fun r => (.jint (-(r.1 : Int)), r.2))
    else (parseNat (c :: cs)).map (fun r => (.jint (r.1 : Int), r.2))

mutual

/-- Parse one JSON value, returning it and the unconsumed remainder. -/
def parseVal : Nat → List Char → Option (Jval × List Char)
  | 0, _ => none
  | fuel + 1, s =>
    match skipWs s with
    | [] => none
    | c :: cs =>
      if c = '"' then (parseStringBody (cs.length + 1) cs).map
        (fun r => (.jstr ⟨r.1⟩, r.2))
      else if c = 't' then
        match cs with
        | 'r' :: 'u' :: 'e' :: rest => some (.jbool true, rest)
        | _ => none
      else if c = 'f' then
        match cs with
        | 'a' :: 'l' :: 's' :: 'e' :: rest => some (.jbool false, rest)
        | _ => none
      else if c = 'n' then
        match cs with
        | 'u' :: 'l' :: 'l' :: rest => some (.jnull, rest)
        | _ => none
      else if c = '[' then
        match skipWs cs with
        | [] => none
        | c2 :: cs2 =>
          if c2 = ']' then some (.jarr [], cs2)
          else parseElems fuel (c2 :: cs2) []
      else if c = '\x7b' then
        match skipWs cs with
        | [] => none
        | c2 :: cs2 =>
          if c2 = '\x7d' then some (.jobj [], cs2)
          else parseMembers fuel (c2 :: cs2) []
      else if c = '-' ∨ isDigit c then parseNumber (c :: cs)
      else none

/-- Parse the elements of a non-empty JSON array after the `[`. -/
def parseElems : Nat → List Char → List Jval → Option (Jval × List Char)
  | 0, _, _ => none
  | fuel + 1, s, acc =>
    match parseVal fuel s with
    | none => none
    | some (v, rest) =>
      match skipWs rest with
      | [] => none
      | c :: rest2 =>
        if c = ',' then parseElems fuel rest2 (acc ++ [v])
        else if c = ']' then some (.jarr (acc ++ [v]), rest2)
        else none

/-- Parse the members of a non-empty JSON object after the `{`. -/
def parseMembers : Nat → List Char → List (String × Jval) →
    Option (Jval × List Char)
  | 0, _, _ => none
  | fuel + 1, s, acc =>
    match skipWs s with
    | [] => none
    | c :: cs =>
      if c = '"' then
        match parseStringBody (cs.length + 1) cs with
        | none => none
        | some (k, rest) =>
          match skipWs rest with
          | [] => none
          | c2 :: rest2 =>
            if c2 = ':' then
              match parseVal fuel rest2 with
              | none => none
              | some (v, rest3) =>
                match skipWs rest3 with
                | [] => none
                | c3 :: rest4 =>
                  if c3 = ',' then parseMembers fuel rest4 (acc ++ [(⟨k⟩, v)])
                  else if c3 = '\x7d' then
                    some (.jobj (acc ++ [(⟨k⟩, v)]), rest4)
                  else none
            else none
      else none

end

/-- Parse a complete JSON document: one value, then only whitespace. -/
def parseTop (s : List Char) : Option Jval :=
  match parseVal (s.length + 1) s with
  | some (j, rest) => if skipWs rest = [] then some j else none
  | none => none

/-! ## Correctness of the parser on rendered output: characters, digits -/

theorem char_ne_of_toNat_ne {c d : Char} (h : c.toNat ≠ d.toNat) : c ≠ d :=
  fun he => h (he ▸ rfl)

theorem isDigit_toNat {c : Char} (h : isDigit c = true) :
    48 ≤ c.toNat ∧ c.toNat ≤ 57 := by
  simp only [isDigit, decide_eq_true_eq] at h
  exact ⟨h.1, h.2⟩

/-- A decimal digit is none of the parser's structural characters. -/
theorem digit_not_special {c : Char} (h : isDigit c = true) :
    isWs c = false ∧ c ≠ '"' ∧ c ≠ 't' ∧ c ≠ 'f' ∧ c ≠ 'n' ∧ c ≠ '[' ∧
    c ≠ '\x7b' ∧ c ≠ '-' ∧ c ≠ ']' ∧ c ≠ '\x7d' ∧ c ≠ ',' := by
  obtain ⟨h1, h2⟩ := isDigit_toNat h
  refine ⟨?_, ?_, ?_, ?_, ?_, ?_, ?_, ?_, ?_, ?_, ?_⟩
  · simp only [isWs, decide_eq_false_iff_not]
    rintro (rfl | rfl | rfl | rfl) <;> simp_all
  all_goals
    exact char_ne_of_toNat_ne (by simp_all; omega)

def nonDigitHead : List Char → Prop
  | [] => True
  | c :: _ => isDigit c = false

/-- What may legally follow a rendered JSON value inside a document. -/
def delimOk : List Char → Prop
  | [] => True
  | c :: _ => c = ',' ∨ c = ']' ∨ c = '\x7d'

theorem delimOk_nonDigit {rest : List Char} (h : delimOk rest) :
    nonDigitHead rest := by
  cases rest with
  | nil => trivial
  | cons c cs =>
    show isDigit c = false
    rcases h with rfl | rfl | rfl <;> decide

theorem digitChar10_isDigit (k : Nat) : isDigit (digitChar10 k) = true := by
  unfold digitChar10
  split <;> decide

theorem digitChar10_val (k : Nat) (h : k < 10) :
    (digitChar10 k).toNat - 48 = k := by
  interval_cases k <;> decide

theorem natDigitsRev_ne_nil (fuel n : Nat) (h : 0 < fuel) :
    natDigitsRev fuel n ≠ [] := by
  cases fuel with
  | zero => omega
  | succ f =>
    unfold natDigitsRev
    split <;> simp

theorem natDigitsRev_digits (fuel : Nat) :
    ∀ n c, c ∈ natDigitsRev fuel n → isDigit c = true := by
  induction fuel with
  | zero => intro n c h; simp [natDigitsRev] at h
  | succ f ih =>
    intro n c h
    unfold natDigitsRev at h
    split at h
    · simp at h
      exact h ▸ digitChar10_isDigit n
    · rcases List.mem_cons.mp h with rfl | hm
      · exact digitChar10_isDigit _
      · exact ih _ _ hm

theorem natDigitsRev_foldl :
    ∀ fuel n acc, n < fuel →
      List.foldl (fun a c => a * 10 + (c.toNat - 48)) acc
          (natDigitsRev fuel n).reverse =
        acc * 10 ^ (natDigitsRev fuel n).length + n := by
  intro fuel
  induction fuel with
  | zero => intro n acc h; omega
  | succ f ih =>
    intro n acc h
    by_cases h10 : n < 10
    · unfold natDigitsRev
      rw [if_pos h10]
      simp [digitChar10_val n h10]
    · unfold natDigitsRev
      rw [if_neg h10]
      rw [List.reverse_cons, List.foldl_append, ih (n / 10) acc (by omega)]
      simp only [List.foldl_cons, List.foldl_nil, List.length_cons]
      rw [digitChar10_val (n % 10) (by omega)]
      have hsplit : 10 * (n / 10) + n % 10 = n := Nat.div_add_mod n 10
      calc (acc * 10 ^ (natDigitsRev f (n / 10)).length + n / 10) * 10 + n % 10
          = acc * (10 ^ (natDigitsRev f (n / 10)).length * 10) +
              (10 * (n / 10) + n % 10) := by ring
        _ = acc * 10 ^ ((natDigitsRev f (n / 10)).length + 1) + n := by
              rw [hsplit, pow_succ]

theorem natToChars_ne_nil (n : Nat) : natToChars n ≠ [] := by
  simp only [natToChars, ne_eq, List.reverse_eq_nil_iff]
  exact natDigitsRev_ne_nil (n + 1) n (by omega)

theorem natToChars_digits (n : Nat) :
    ∀ c ∈ natToChars n, isDigit c = true := by
  intro c hc
  rw [natToChars, List.mem_reverse] at hc
  exact natDigitsRev_digits (n + 1) n c hc

theorem natToChars_foldl (n : Nat) :
    List.foldl (fun a c => a * 10 + (c.toNat - 48)) 0 (natToChars n) = n := by
  rw [natToChars, natDigitsRev_foldl (n + 1) n 0 (by omega)]
  simp

theorem digitChar10_ne_zero (k : Nat) (h1 : 1 ≤ k) (h2 : k ≤ 9) :
    digitChar10 k ≠ '0' := by
  interval_cases k <;> decide

theorem natDigitsRev_getLast? :
    ∀ fuel n, 1 ≤ n → n < fuel →
      ∃ k, 1 ≤ k ∧ k ≤ 9 ∧
        (natDigitsRev fuel n).getLast? = some (digitChar10 k) := by
  intro fuel
  induction fuel with
  | zero => intro n h1 h2; omega
  | succ f ih =>
    intro n h1 h2
    by_cases h10 : n < 10
    · refine ⟨n, h1, by omega, ?_⟩
      unfold natDigitsRev
      rw [if_pos h10]
      rfl
    · obtain ⟨k, hk1, hk9, hlast⟩ := ih (n / 10) (by omega) (by omega)
      refine ⟨k, hk1, hk9, ?_⟩
      unfold natDigitsRev
      rw [if_neg h10, List.getLast?_cons, hlast]
      rfl

theorem natToChars_head_ne_zero (n : Nat) (h : 1 ≤ n) :
    ∀ c cs, natToChars n = c :: cs → c ≠ '0' := by
  intro c cs he
  obtain ⟨k, hk1, hk9, hlast⟩ := natDigitsRev_getLast? (n + 1) n h (by omega)
  have hh : (natToChars n).head? = some c := by rw [he]; rfl
  rw [natToChars, List.head?_reverse, hlast] at hh
  cases hh
  exact digitChar10_ne_zero k hk1 hk9

theorem parseDigits_spec :
    ∀ (dl : List Char), (∀ c ∈ dl, isDigit c = true) →
      ∀ rest acc, nonDigitHead rest →
        parseDigits (dl ++ rest) acc =
          (List.foldl (fun a c => a * 10 + (c.toNat - 48)) acc dl, rest) := by
  intro dl
  induction dl with
  | nil =>
    intro _ rest acc hr
    cases rest with
    | nil => rfl
    | cons c cs =>
      have hr2 : isDigit c = false := hr
      simp [parseDigits, hr2]
  | cons c cs ih =>
    intro hd rest acc hr
    simp only [List.cons_append]
    rw [show parseDigits (c :: (cs ++ rest)) acc =
      if isDigit c = true then
        parseDigits (cs ++ rest) (acc * 10 + (c.toNat - 48))
      else (acc, c :: (cs ++ rest)) from rfl]
    rw [if_pos (hd c (List.mem_cons_self c cs))]
    rw [ih (fun x hx => hd x (List.mem_cons_of_mem c hx)) rest _ hr]
    rfl

theorem parseNat_natToChars (n : Nat) (rest : List Char)
    (hr : nonDigitHead rest) :
    parseNat (natToChars n ++ rest) = some (n, rest) := by
  by_cases h0 : n = 0
  · subst h0
    have hz : natToChars 0 = ['0'] := rfl
    rw [hz]
    cases rest with
    | nil => rfl
    | cons c cs =>
      have hr2 : isDigit c = false := hr
      show parseNat ('0' :: c :: cs) = some (0, c :: cs)
      simp [parseNat, hr2]
  · obtain ⟨c, cs, he⟩ : ∃ c cs, natToChars n = c :: cs := by
      cases hh : natToChars n with
      | nil => exact absurd hh (natToChars_ne_nil n)
      | cons c cs => exact ⟨c, cs, rfl⟩
    have hc : isDigit c = true := natToChars_digits n c (by rw [he]; simp)
    have hcs : ∀ x ∈ cs, isDigit x = true :=
      fun x hx => natToChars_digits n x (by rw [he]; simp [hx])
    have hc0 : c ≠ '0' := natToChars_head_ne_zero n (by omega) c cs he
    rw [he, List.cons_append]
    rw [show parseNat (c :: (cs ++ rest)) =
      if c = '0' then
        match cs ++ rest with
        | d :: ds => if isDigit d = true then none else some (0, d :: ds)
        | [] => some (0, [])
      else if isDigit c = true then
        some (parseDigits (cs ++ rest) (c.toNat - 48))
      else none from rfl]
    rw [if_neg hc0, if_pos hc, parseDigits_spec cs hcs rest _ hr]
    have hfold := natToChars_foldl n
    rw [he] at hfold
    simp only [List.foldl_cons] at hfold
    simp only [Nat.zero_mul, Nat.zero_add] at hfold
    rw [hfold]

theorem parseNumber_intToChars (i : Int) (rest : List Char)
    (hr : nonDigitHead rest) :
    parseNumber (intToChars i ++ rest) = some (.jint i, rest) := by
  unfold intToChars
  by_cases hneg : i < 0
  · rw [if_pos hneg]
    show parseNumber ('-' :: (natToChars (-i).toNat ++ rest)) = _
    rw [show parseNumber ('-' :: (natToChars (-i).toNat ++ rest)) =
      (parseNat (natToChars (-i).toNat ++ rest)).map
        (fun r => (.jint (-(r.1 : Int)), r.2)) from by
          simp [parseNumber]]
    rw [parseNat_natToChars _ rest hr]
    simp only [Option.map_some']
    have : (-(((-i).toNat : Nat) : Int)) = i := by omega
    rw [this]
  · rw [if_neg hneg]
    obtain ⟨c, cs, he⟩ : ∃ c cs, natToChars i.toNat = c :: cs := by
      cases hh : natToChars i.toNat with
      | nil => exact absurd hh (natToChars_ne_nil _)
      | cons c cs => exact ⟨c, cs, rfl⟩
    have hc : isDigit c = true := natToChars_digits _ c (by rw [he]; simp)
    rw [he, List.cons_append]
    rw [show parseNumber (c :: (cs ++ rest)) =
      if c = '-' then
        (parseNat (cs ++ rest)).map (fun r => (.jint (-(r.1 : Int)), r.2))
      else (parseNat (c :: (cs ++ rest))).map
        (fun r => (.jint (r.1 : Int), r.2)) from rfl]
    rw [if_neg (digit_not_special hc).2.2.2.2.2.2.2.1]
    rw [← List.cons_append, ← he, parseNat_natToChars _ rest hr]
    simp only [Option.map_some']
    have : ((i.toNat : Nat) : Int) = i := by omega
    rw [this]

/-! ## Correctness of the parser on rendered output: strings -/

theorem hexDigitVal_hexDigitChar (k : Nat) (h : k < 16) :
    hexDigitVal (hexDigitChar k) = some k := by
  interval_cases k <;> decide

theorem hex4_spec (nn : Nat) (h : nn < 65536) :
    hex4 (hexDigitChar (nn / 4096 % 16)) (hexDigitChar (nn / 256 % 16))
      (hexDigitChar (nn / 16 % 16)) (hexDigitChar (nn % 16)) = some nn := by
  unfold hex4
  rw [hexDigitVal_hexDigitChar _ (by omega), hexDigitVal_hexDigitChar _ (by omega),
    hexDigitVal_hexDigitChar _ (by omega), hexDigitVal_hexDigitChar _ (by omega)]
  show some _ = some nn
  congr 1
  omega

/-- One-step unfolding of the parser on a `\uXXXX` escape. -/
theorem parseStringBody_uEscape_step (f : Nat) (w x y z : Char)
    (tail : List Char) :
    parseStringBody (f + 1) ('\\' :: 'u' :: w :: x :: y :: z :: tail) =
      match hex4 w x y z with
      | none => none
      | some n =>
        if n < 55296 ∨ 57343 < n then
          (parseStringBody f tail).map (fun r => (Char.ofNat n :: r.1, r.2))
        else if n < 56320 then
          match tail with
          | '\\' :: 'u' :: g1 :: g2 :: g3 :: g4 :: cs4 =>
            match hex4 g1 g2 g3 g4 with
            | none => none
            | some m =>
              if 56320 ≤ m ∧ m ≤ 57343 then
                (parseStringBody f cs4).map (fun r =>
                  (Char.ofNat (65536 + (n - 55296) * 1024 + (m - 56320))
                    :: r.1, r.2))
              else
                (parseStringBody f tail).map
                  (fun r => (Char.ofNat 65533 :: r.1, r.2))
          | _ =>
            (parseStringBody f tail).map
              (fun r => (Char.ofNat 65533 :: r.1, r.2))
        else
          (parseStringBody f tail).map
            (fun r => (Char.ofNat 65533 :: r.1, r.2)) := rfl

/-- Reading back a non-surrogate `\uXXXX` escape. -/
theorem parseStringBody_uEscape (f n : Nat) (tail : List Char)
    (hlt : n < 65536) (hsur : n < 55296 ∨ 57343 < n) :
    parseStringBody (f + 1) (uEscape n ++ tail) =
      (parseStringBody f tail).map (fun r => (Char.ofNat n :: r.1, r.2)) := by
  show parseStringBody (f + 1)
    ('\\' :: 'u' :: hexDigitChar (n / 4096 % 16) :: hexDigitChar (n / 256 % 16)
      :: hexDigitChar (n / 16 % 16) :: hexDigitChar (n % 16) :: tail) = _
  rw [parseStringBody_uEscape_step, hex4_spec n hlt]
  simp [hsur]

/-- Reading back an unescaped character. -/
theorem parseStringBody_plain (f : Nat) (c : Char) (tail : List Char)
    (h1 : ¬ c = '"') (h2 : ¬ c = '\\') (h6 : ¬ c.toNat < 32) :
    parseStringBody (f + 1) (c :: tail) =
      (parseStringBody f tail).map (fun r => (c :: r.1, r.2)) := by
  rw [parseStringBody.eq_def]
  dsimp only
  rw [if_neg h1, if_neg h2, if_neg h6]

/-- Reading back one escaped string body: the parser inverts the encoder's
escaping, consuming through the closing quote. -/
theorem parseStringBody_escaped :
    ∀ (l : List Char) (fuel : Nat) (rest : List Char),
      (l.flatMap escapeChar).length < fuel →
      parseStringBody fuel (l.flatMap escapeChar ++ '"' :: rest) =
        some (l, rest) := by
  intro l
  induction l with
  | nil =>
    intro fuel rest hf
    cases fuel with
    | zero => omega
    | succ f =>
      rw [show (([] : List Char).flatMap escapeChar ++ '"' :: rest) =
        '"' :: rest from rfl]
      rw [show parseStringBody (f + 1) ('"' :: rest) = some ([], rest) from rfl]
  | cons c l ih =>
    intro fuel rest hf
    rw [List.flatMap_cons] at hf ⊢
    by_cases h1 : c = '"'
    · subst h1
      rw [show escapeChar '"' = ['\\', '"'] from rfl] at hf ⊢
      cases fuel with
      | zero => simp at hf
      | succ f =>
        simp only [List.cons_append, List.nil_append]
        rw [show parseStringBody (f + 1)
            ('\\' :: '"' :: (l.flatMap escapeChar ++ '"' :: rest)) =
            (parseStringBody f (l.flatMap escapeChar ++ '"' :: rest)).map
              (fun r => ('"' :: r.1, r.2)) from rfl,
          ih f rest (by simp at hf ⊢; omega)]
        rfl
    · by_cases h2 : c = '\\'
      · subst h2
        rw [show escapeChar '\\' = ['\\', '\\'] from rfl] at hf ⊢
        cases fuel with
        | zero => simp at hf
        | succ f =>
          simp only [List.cons_append, List.nil_append]
          rw [show parseStringBody (f + 1)
              ('\\' :: '\\' :: (l.flatMap escapeChar ++ '"' :: rest)) =
              (parseStringBody f (l.flatMap escapeChar ++ '"' :: rest)).map
                (fun r => ('\\' :: r.1, r.2)) from rfl,
            ih f rest (by simp at hf ⊢; omega)]
          rfl
      · by_cases h3 : c = '\n'
        · subst h3
          rw [show escapeChar '\n' = ['\\', 'n'] from rfl] at hf ⊢
          cases fuel with
          | zero => simp at hf
          | succ f =>
            simp only [List.cons_append, List.nil_append]
            rw [show parseStringBody (f + 1)
                ('\\' :: 'n' :: (l.flatMap escapeChar ++ '"' :: rest)) =
                (parseStringBody f (l.flatMap escapeChar ++ '"' :: rest)).map
                  (fun r => ('\n' :: r.1, r.2)) from rfl,
              ih f rest (by simp at hf ⊢; omega)]
            rfl
        · by_cases h4 : c = '\r'
          · subst h4
            rw [show escapeChar '\r' = ['\\', 'r'] from rfl] at hf ⊢
            cases fuel with
            | zero => simp at hf
            | succ f =>
              simp only [List.cons_append, List.nil_append]
              rw [show parseStringBody (f + 1)
                  ('\\' :: 'r' :: (l.flatMap escapeChar ++ '"' :: rest)) =
                  (parseStringBody f
                    (l.flatMap escapeChar ++ '"' :: rest)).map
                    (fun r => ('\r' :: r.1, r.2)) from rfl,
                ih f rest (by simp at hf ⊢; omega)]
              rfl
          · by_cases h5 : c = '\t'
            · subst h5
              rw [show escapeChar '\t' = ['\\', 't'] from rfl] at hf ⊢
              cases fuel with
              | zero => simp at hf
              | succ f =>
                simp only [List.cons_append, List.nil_append]
                rw [show parseStringBody (f + 1)
                    ('\\' :: 't' :: (l.flatMap escapeChar ++ '"' :: rest)) =
                    (parseStringBody f
                      (l.flatMap escapeChar ++ '"' :: rest)).map
                      (fun r => ('\t' :: r.1, r.2)) from rfl,
                  ih f rest (by simp at hf ⊢; omega)]
                rfl
            · by_cases h6 : c.toNat < 32
              · rw [show escapeChar c = uEscape c.toNat from by
                  simp [escapeChar, h1, h2, h3, h4, h5, h6]] at hf ⊢
                cases fuel with
                | zero => simp [uEscape] at hf
                | succ f =>
                  rw [List.append_assoc,
                    parseStringBody_uEscape f c.toNat _ (by omega) (by omega),
                    ih f rest (by simp [uEscape] at hf ⊢; omega),
                    Char.ofNat_toNat]
                  rfl
              · by_cases h7 : c = '<' ∨ c = '>' ∨ c = '&'
                · have h7n : c.toNat = 60 ∨ c.toNat = 62 ∨ c.toNat = 38 := by
                    rcases h7 with rfl | rfl | rfl <;> simp
                  rw [show escapeChar c = uEscape c.toNat from by
                    simp [escapeChar, h1, h2, h3, h4, h5, h6, h7]] at hf ⊢
                  cases fuel with
                  | zero => simp [uEscape] at hf
                  | succ f =>
                    rw [List.append_assoc,
                      parseStringBody_uEscape f c.toNat _ (by omega) (by omega),
                      ih f rest (by simp [uEscape] at hf ⊢; omega),
                      Char.ofNat_toNat]
                    rfl
                · by_cases h8 : c.toNat = 8232 ∨ c.toNat = 8233
                  · rw [show escapeChar c = uEscape c.toNat from by
                      simp [escapeChar, h1, h2, h3, h4, h5, h6, h7, h8]] at hf ⊢
                    cases fuel with
                    | zero => simp [uEscape] at hf
                    | succ f =>
                      rw [List.append_assoc,
                        parseStringBody_uEscape f c.toNat _ (by omega)
                          (by omega),
                        ih f rest (by simp [uEscape] at hf ⊢; omega),
                        Char.ofNat_toNat]
                      rfl
                  · rw [show escapeChar c = [c] from by
                      simp [escapeChar, h1, h2, h3, h4, h5, h6, h7, h8]] at hf ⊢
                    cases fuel with
                    | zero => simp at hf
                    | succ f =>
                      simp only [List.cons_append, List.nil_append]
                      rw [parseStringBody_plain f c _ h1 h2 h6,
                        ih f rest (by simp at hf ⊢; omega)]
                      rfl

/-! ## Correctness of the parser on rendered output: values -/

mutual

/-- The fuel a parse of a rendered value needs. -/
def sizeJ : Jval → Nat
  | .jstr _ => 1
  | .jint _ => 1
  | .jbool _ => 1
  | .jnull => 1
  | .jarr l => sizeL l + 1
  | .jobj l => sizeM l + 1

def sizeL : List Jval → Nat
  | [] => 0
  | x :: xs => sizeJ x + 1 + sizeL xs

def sizeM : List (String × Jval) → Nat
  | [] => 0
  | (_, v) :: xs => sizeJ v + 1 + sizeM xs

end

theorem one_le_sizeJ (j : Jval) : 1 ≤ sizeJ j := by
  cases j <;> simp [sizeJ]

theorem skipWs_cons {c : Char} (h : isWs c = false) (cs : List Char) :
    skipWs (c :: cs) = c :: cs := by
  simp [skipWs, h]

/-- Every rendered value starts with a character that is neither whitespace
nor a closing bracket. -/
theorem renderVal_head (j : Jval) :
    ∃ hc tl, renderVal j = hc :: tl ∧ isWs hc = false ∧ hc ≠ ']' ∧
      hc ≠ '\x7d' := by
  cases j with
  | jstr s => exact ⟨'"', _, rfl, by decide, by decide, by decide⟩
  | jint n =>
    show ∃ hc tl, intToChars n = hc :: tl ∧ _
    unfold intToChars
    by_cases hneg : n < 0
    · rw [if_pos hneg]
      exact ⟨'-', _, rfl, by decide, by decide, by decide⟩
    · rw [if_neg hneg]
      obtain ⟨c, cs, he⟩ : ∃ c cs, natToChars n.toNat = c :: cs := by
        cases hh : natToChars n.toNat with
        | nil => exact absurd hh (natToChars_ne_nil _)
        | cons c cs => exact ⟨c, cs, rfl⟩
      have hc : isDigit c = true := natToChars_digits _ c (by rw [he]; simp)
      have hsp := digit_not_special hc
      exact ⟨c, cs, he, hsp.1, hsp.2.2.2.2.2.2.2.2.1, hsp.2.2.2.2.2.2.2.2.2.1⟩
  | jbool b =>
    cases b
    · exact ⟨'f', _, rfl, by decide, by decide, by decide⟩
    · exact ⟨'t', _, rfl, by decide, by decide, by decide⟩
  | jnull => exact ⟨'n', _, rfl, by decide, by decide, by decide⟩
  | jarr l => exact ⟨'[', _, rfl, by decide, by decide, by decide⟩
  | jobj l => exact ⟨'\x7b', _, rfl, by decide, by decide, by decide⟩

theorem renderElems_cons (x : Jval) (xs : List Jval) :
    ∃ tl, renderElems (x :: xs) = renderVal x ++ tl := by
  cases xs with
  | nil => exact ⟨[], by simp [renderElems]⟩
  | cons y ys => exact ⟨',' :: renderElems (y :: ys), rfl⟩

/-- One-step unfolding of `parseVal` at positive fuel. -/
theorem parseVal_succ (f : Nat) (s : List Char) :
    parseVal (f + 1) s =
      match skipWs s with
      | [] => none
      | c :: cs =>
        if c = '"' then (parseStringBody (cs.length + 1) cs).map
          (fun r => (.jstr ⟨r.1⟩, r.2))
        else if c = 't' then
          match cs with
          | 'r' :: 'u' :: 'e' :: rest => some (.jbool true, rest)
          | _ => none
        else if c = 'f' then
          match cs with
          | 'a' :: 'l' :: 's' :: 'e' :: rest => some (.jbool false, rest)
          | _ => none
        else if c = 'n' then
          match cs with
          | 'u' :: 'l' :: 'l' :: rest => some (.jnull, rest)
          | _ => none
        else if c = '[' then
          match skipWs cs with
          | [] => none
          | c2 :: cs2 =>
            if c2 = ']' then some (.jarr [], cs2)
            else parseElems f (c2 :: cs2) []
        else if c = '\x7b' then
          match skipWs cs with
          | [] => none
          | c2 :: cs2 =>
            if c2 = '\x7d' then some (.jobj [], cs2)
            else parseMembers f (c2 :: cs2) []
        else if c = '-' ∨ isDigit c then parseNumber (c :: cs)
        else none := rfl

/-- One-step unfolding of `parseElems` at positive fuel. -/
theorem parseElems_succ (f : Nat) (s : List Char) (acc : List Jval) :
    parseElems (f + 1) s acc =
      match parseVal f s with
      | none => none
      | some (v, rest) =>
        match skipWs rest with
        | [] => none
        | c :: rest2 =>
          if c = ',' then parseElems f rest2 (acc ++ [v])
          else if c = ']' then some (.jarr (acc ++ [v]), rest2)
          else none := rfl

/-- One-step unfolding of `parseMembers` at positive fuel. -/
theorem parseMembers_succ (f : Nat) (s : List Char)
    (acc : List (String × Jval)) :
    parseMembers (f + 1) s acc =
      match skipWs s with
      | [] => none
      | c :: cs =>
        if c = '"' then
          match parseStringBody (cs.length + 1) cs with
          | none => none
          | some (k, rest) =>
            match skipWs rest with
            | [] => none
            | c2 :: rest2 =>
              if c2 = ':' then
                match parseVal f rest2 with
                | none => none
                | some (v, rest3) =>
                  match skipWs rest3 with
                  | [] => none
                  | c3 :: rest4 =>
                    if c3 = ',' then parseMembers f rest4 (acc ++ [(⟨k⟩, v)])
                    else if c3 = '\x7d' then
                      some (.jobj (acc ++ [(⟨k⟩, v)]), rest4)
                    else none
              else none
        else none := rfl

/-- The parser reads back every rendered value, array tail and object
tail, given fuel at least the value's size. -/
theorem parse_render (fuel : Nat) :
    (∀ j rest, sizeJ j ≤ fuel → delimOk rest →
      parseVal fuel (renderVal j ++ rest) = some (j, rest)) ∧
    (∀ el acc rest, el ≠ [] → sizeL el ≤ fuel →
      parseElems fuel (renderElems el ++ ']' :: rest) acc =
        some (.jarr (acc ++ el), rest)) ∧
    (∀ ml acc rest, ml ≠ [] → sizeM ml ≤ fuel →
      parseMembers fuel (renderMembers ml ++ '\x7d' :: rest) acc =
        some (.jobj (acc ++ ml), rest)) := by
  induction fuel with
  | zero =>
    refine ⟨fun j rest hs hd => ?_, fun el acc rest hne hs => ?_,
      fun ml acc rest hne hs => ?_⟩
    · have := one_le_sizeJ j; omega
    · cases el with
      | nil => exact absurd rfl hne
      | cons x xs =>
        have h1 := one_le_sizeJ x
        have h2 : sizeL (x :: xs) = sizeJ x + 1 + sizeL xs := by rw [sizeL]
        omega
    · cases ml with
      | nil => exact absurd rfl hne
      | cons m ms =>
        obtain ⟨k, v⟩ := m
        have h1 := one_le_sizeJ v
        have h2 : sizeM ((k, v) :: ms) = sizeJ v + 1 + sizeM ms := by
          rw [sizeM]
        omega
  | succ f ih =>
    obtain ⟨ihV, ihE, ihM⟩ := ih
    refine ⟨fun j rest hs hd => ?_, fun el acc rest hne hs => ?_,
      fun ml acc rest hne hs => ?_⟩
    · -- parseVal on a rendered value
      cases j with
      | jstr s =>
        rcases s with ⟨sl⟩
        show parseVal (f + 1)
          (('"' :: (sl.flatMap escapeChar ++ ['"'])) ++ rest) = _
        simp only [List.cons_append, List.append_assoc, List.singleton_append,
          List.nil_append]
        rw [parseVal_succ, skipWs_cons (by decide)]
        dsimp only
        rw [if_pos rfl]
        rw [parseStringBody_escaped sl _ rest
          (by rw [List.length_append]; simp; omega)]
        rfl
      | jint n =>
        show parseVal (f + 1) (intToChars n ++ rest) = _
        obtain ⟨c, cs, he, hh⟩ :
            ∃ c cs, intToChars n = c :: cs ∧ (c = '-' ∨ isDigit c = true) := by
          unfold intToChars
          by_cases hneg : n < 0
          · rw [if_pos hneg]
            exact ⟨'-', _, rfl, Or.inl rfl⟩
          · rw [if_neg hneg]
            obtain ⟨c, cs, hcs⟩ : ∃ c cs, natToChars n.toNat = c :: cs := by
              cases hh : natToChars n.toNat with
              | nil => exact absurd hh (natToChars_ne_nil _)
              | cons c cs => exact ⟨c, cs, rfl⟩
            exact ⟨c, cs, hcs, Or.inr (natToChars_digits _ c (by rw [hcs]; simp))⟩
        rw [he, List.cons_append, parseVal_succ]
        rcases hh with rfl | hdig
        · rw [skipWs_cons (by decide)]
          dsimp only
          rw [if_neg (by decide : ¬('-' : Char) = '"'),
            if_neg (by decide : ¬('-' : Char) = 't'),
            if_neg (by decide : ¬('-' : Char) = 'f'),
            if_neg (by decide : ¬('-' : Char) = 'n'),
            if_neg (by decide : ¬('-' : Char) = '['),
            if_neg (by decide : ¬('-' : Char) = '\x7b')]
          rw [← List.cons_append, ← he]
          exact parseNumber_intToChars n rest (delimOk_nonDigit hd)
        · have hsp := digit_not_special hdig
          rw [skipWs_cons hsp.1]
          dsimp only
          rw [if_neg hsp.2.1, if_neg hsp.2.2.1, if_neg hsp.2.2.2.1,
            if_neg hsp.2.2.2.2.1, if_neg hsp.2.2.2.2.2.1,
            if_neg hsp.2.2.2.2.2.2.1, if_pos (Or.inr hdig),
            ← List.cons_append, ← he]
          exact parseNumber_intToChars n rest (delimOk_nonDigit hd)
      | jbool b => cases b <;> rfl
      | jnull => rfl
      | jarr l =>
        cases l with
        | nil => rfl
        | cons x xs =>
          show parseVal (f + 1)
            (('[' :: (renderElems (x :: xs) ++ [']'])) ++ rest) = _
          simp only [List.cons_append, List.append_assoc, List.singleton_append,
            List.nil_append]
          rw [show parseVal (f + 1)
              ('[' :: (renderElems (x :: xs) ++ ']' :: rest)) =
              (match skipWs (renderElems (x :: xs) ++ ']' :: rest) with
              | [] => none
              | c2 :: cs2 =>
                if c2 = ']' then some (.jarr [], cs2)
                else parseElems f (c2 :: cs2) []) from rfl]
          obtain ⟨tl, htl⟩ := renderElems_cons x xs
          obtain ⟨hc, tl0, hx, hws, hbr, _⟩ := renderVal_head x
          rw [htl, hx]
          simp only [List.cons_append, List.append_assoc]
          rw [skipWs_cons hws]
          dsimp only
          rw [if_neg hbr]
          rw [show hc :: (tl0 ++ (tl ++ ']' :: rest)) =
            (hc :: tl0 ++ tl) ++ ']' :: rest from by simp]
          rw [← hx, ← htl]
          rw [ihE (x :: xs) [] rest (by simp) (by simp [sizeJ] at hs; omega)]
          simp
      | jobj l =>
        cases l with
        | nil => rfl
        | cons m ms =>
          obtain ⟨k, v⟩ := m
          rcases k with ⟨kl⟩
          show parseVal (f + 1)
            (('\x7b' :: (renderMembers ((⟨kl⟩, v) :: ms) ++ ['\x7d'])) ++ rest)
            = _
          simp only [List.cons_append, List.append_assoc, List.singleton_append,
            List.nil_append]
          rw [show parseVal (f + 1)
              ('\x7b' :: (renderMembers ((⟨kl⟩, v) :: ms) ++ '\x7d' :: rest)) =
              (match skipWs (renderMembers ((⟨kl⟩, v) :: ms) ++ '\x7d' :: rest)
                with
              | [] => none
              | c2 :: cs2 =>
                if c2 = '\x7d' then some (.jobj [], cs2)
                else parseMembers f (c2 :: cs2) []) from rfl]
          have hstart : ∃ tl, renderMembers ((⟨kl⟩, v) :: ms) =
              '"' :: (kl.flatMap escapeChar ++ '"' :: tl) := by
            cases ms with
            | nil =>
              refine ⟨':' :: renderVal v, ?_⟩
              rw [show renderMembers [(⟨kl⟩, v)] =
                renderString ⟨kl⟩ ++ ':' :: renderVal v from by
                  rw [renderMembers]]
              simp [renderString]
            | cons m2 ms2 =>
              refine ⟨':' :: (renderVal v ++ ',' :: renderMembers (m2 :: ms2)),
                ?_⟩
              rw [show renderMembers ((⟨kl⟩, v) :: m2 :: ms2) =
                renderString ⟨kl⟩ ++
                  ':' :: (renderVal v ++ ',' :: renderMembers (m2 :: ms2))
                from by rw [renderMembers]; simp]
              simp [renderString]
          obtain ⟨tl, htl⟩ := hstart
          rw [htl]
          simp only [List.cons_append, List.append_assoc]
          rw [skipWs_cons (by decide)]
          dsimp only
          rw [if_neg (by decide)]
          rw [show ('"' : Char) :: (kl.flatMap escapeChar ++
              '"' :: (tl ++ '\x7d' :: rest)) =
            ('"' :: (kl.flatMap escapeChar ++ '"' :: tl)) ++ '\x7d' :: rest
            from by simp]
          rw [← htl]
          rw [ihM ((⟨kl⟩, v) :: ms) [] rest (by simp)
            (by simp [sizeJ] at hs; omega)]
          simp
    · -- parseElems on a rendered element list
      cases el with
      | nil => exact absurd rfl hne
      | cons x xs =>
        rw [parseElems_succ]
        cases xs with
        | nil =>
          show (match parseVal f (renderVal x ++ ']' :: rest) with
            | none => none
            | some (v, rest) =>
              match skipWs rest with
              | [] => none
              | c :: rest2 =>
                if c = ',' then parseElems f rest2 (acc ++ [v])
                else if c = ']' then some (.jarr (acc ++ [v]), rest2)
                else none) = _
          rw [ihV x (']' :: rest) (by simp [sizeL] at hs; omega) (by
            show (']' : Char) = ',' ∨ (']' : Char) = ']' ∨ (']' : Char) = '\x7d'
            exact Or.inr (Or.inl rfl))]
          dsimp only
          rw [skipWs_cons (by decide)]
          dsimp only
          rw [if_neg (by decide), if_pos rfl]
        | cons y ys =>
          show (match parseVal f
              ((renderVal x ++ ',' :: renderElems (y :: ys)) ++ ']' :: rest)
              with
            | none => none
            | some (v, rest) =>
              match skipWs rest with
              | [] => none
              | c :: rest2 =>
                if c = ',' then parseElems f rest2 (acc ++ [v])
                else if c = ']' then some (.jarr (acc ++ [v]), rest2)
                else none) = _
          simp only [List.append_assoc, List.cons_append]
          rw [ihV x (',' :: (renderElems (y :: ys) ++ ']' :: rest))
            (by simp [sizeL] at hs; omega) (Or.inl rfl)]
          dsimp only
          rw [skipWs_cons (by decide)]
          dsimp only
          rw [if_pos rfl]
          rw [ihE (y :: ys) (acc ++ [x]) rest (by simp)
            (by simp [sizeL] at hs ⊢; omega)]
          simp
    · -- parseMembers on a rendered member list
      cases ml with
      | nil => exact absurd rfl hne
      | cons m ms =>
        obtain ⟨k, v⟩ := m
        rcases k with ⟨kl⟩
        rw [parseMembers_succ]
        cases ms with
        | nil =>
          rw [show renderMembers [(⟨kl⟩, v)] =
            renderString ⟨kl⟩ ++ ':' :: renderVal v from by rw [renderMembers]]
          simp only [renderString, List.cons_append, List.append_assoc,
            List.singleton_append, List.nil_append]
          rw [skipWs_cons (by decide)]
          dsimp only
          rw [if_pos rfl]
          rw [parseStringBody_escaped kl _ _
            (by rw [List.length_append]; simp; omega)]
          dsimp only
          rw [skipWs_cons (by decide)]
          dsimp only
          rw [if_pos rfl]
          rw [ihV v ('\x7d' :: rest) (by simp [sizeM] at hs; omega) (by
            show ('\x7d' : Char) = ',' ∨ ('\x7d' : Char) = ']' ∨
              ('\x7d' : Char) = '\x7d'
            exact Or.inr (Or.inr rfl))]
          dsimp only
          rw [skipWs_cons (by decide)]
          dsimp only
          rw [if_neg (by decide), if_pos rfl]
        | cons m2 ms2 =>
          rw [show renderMembers ((⟨kl⟩, v) :: m2 :: ms2) =
            renderString ⟨kl⟩ ++
              ':' :: (renderVal v ++ ',' :: renderMembers (m2 :: ms2))
            from by rw [renderMembers]; simp]
          simp only [renderString, List.cons_append, List.append_assoc,
            List.singleton_append, List.nil_append]
          rw [skipWs_cons (by decide)]
          dsimp only
          rw [if_pos rfl]
          rw [parseStringBody_escaped kl _ _
            (by rw [List.length_append]; simp; omega)]
          dsimp only
          rw [skipWs_cons (by decide)]
          dsimp only
          rw [if_pos rfl]
          rw [ihV v (',' :: (renderMembers (m2 :: ms2) ++ '\x7d' :: rest))
            (by simp [sizeM] at hs; omega) (Or.inl rfl)]
          dsimp only
          rw [skipWs_cons (by decide)]
          dsimp only
          rw [if_pos rfl]
          rw [ihM (m2 :: ms2) (acc ++ [(String.mk kl, v)]) rest (by simp)
            (by simp [sizeM] at hs ⊢; omega)]
          simp

/-! ## Go struct encoding and decoding for the program's data types -/

structure BookCheckout where
  BookId : String
  User : String
  CheckoutDate : String
  IsGenesis : Bool
deriving DecidableEq, Repr

structure Block where
  Pos : Int
  Data : BookCheckout
  Timestamp : String
  Hash : String
  Prevhash : String
deriving DecidableEq, Repr

structure Blockchain where
  Blocks : List Block
deriving DecidableEq, Repr

/-- The Go zero value of `BookCheckout`. -/
def zeroCheckout : BookCheckout := ⟨"", "", "", false⟩

/-- The Go zero value of `Block`. -/
def zeroBlock : Block := ⟨0, zeroCheckout, "", "", ""⟩

/-- `json.Marshal` of `BookCheckout`: tagged keys in declaration order. -/
def encodeCheckout (d : BookCheckout) : Jval :=
  .jobj [("bookid", .jstr d.BookId), ("user", .jstr d.User),
         ("checkout_date", .jstr d.CheckoutDate), ("is_genesis", .jbool d.IsGenesis)]

/-- `json.Marshal` of `Block`: untagged field names in declaration order. -/
def encodeBlock (b : Block) : Jval :=
  .jobj [("Pos", .jint b.Pos), ("Data", encodeCheckout b.Data),
         ("Timestamp", .jstr b.Timestamp), ("Hash", .jstr b.Hash),
         ("Prevhash", .jstr b.Prevhash)]

/-- `json.Marshal` of `Blockchain`: the single tagged field `blocks`. -/
def encodeChain (bc : Blockchain) : Jval :=
  .jobj [("blocks", .jarr (bc.Blocks.map encodeBlock))]

/-- Case-insensitive field-name matching (`ASCII` case fold), as Go's
`json.Unmarshal` matches keys to struct fields and tags. -/
def asciiLower (c : Char) : Char :=
  if 'A' ≤ c ∧ c ≤ 'Z' then Char.ofNat (c.toNat + 32) else c

def keyMatch (k field : String) : Bool :=
  k.data.map asciiLower == field.data.map asciiLower

/-- Decoding one object member into a `BookCheckout` under construction:
a matching key overwrites its field (`null` leaves it), a type mismatch is
an error, an unknown key is ignored. -/
def applyCheckoutField (st : BookCheckout) (k : String) (v : Jval) :
    Option BookCheckout :=
  if keyMatch k "bookid" then
    match v with
    | .jstr s => some { st with BookId := s }
    | .jnull => some st
    | _ => none
  else if keyMatch k "user" then
    match v with
    | .jstr s => some { st with User := s }
    | .jnull => some st
    | _ => none
  else if keyMatch k "checkout_date" then
    match v with
    | .jstr s => some { st with CheckoutDate := s }
    | .jnull => some st
    | _ => none
  else if keyMatch k "is_genesis" then
    match v with
    | .jbool b => some { st with IsGenesis := b }
    | .jnull => some st
    | _ => none
  else some st

/-- `json.Unmarshal` of a value into an existing `BookCheckout`. -/
def decodeCheckoutFrom (st : BookCheckout) : Jval → Option BookCheckout
  | .jobj members => members.foldlM (fun a kv => applyCheckoutField a kv.1 kv.2) st
  | .jnull => some st
  | _ => none

/-- Decoding one object member into a `Block` under construction. -/
def applyBlockField (st : Block) (k : String) (v : Jval) : Option Block :=
  if keyMatch k "Pos" then
    match v with
    | .jint n => some { st with Pos := n }
    | .jnull => some st
    | _ => none
  else if keyMatch k "Data" then
    (decodeCheckoutFrom st.Data v).map (fun d => { st with Data := d })
  else if keyMatch k "Timestamp" then
    match v with
    | .jstr s => some { st with Timestamp := s }
    | .jnull => some st
    | _ => none
  else if keyMatch k "Hash" then
    match v with
    | .jstr s => some { st with Hash := s }
    | .jnull => some st
    | _ => none
  else if keyMatch k "Prevhash" then
    match v with
    | .jstr s => some { st with Prevhash := s }
    | .jnull => some st
    | _ => none
  else some st

/-- `json.Unmarshal` of a value into an existing `Block`. -/
def decodeBlockFrom (st : Block) : Jval → Option Block
  | .jobj members => members.foldlM (fun a kv => applyBlockField a kv.1 kv.2) st
  | .jnull => some st
  | _ => none

/-- `json.Unmarshal` of an array into a `[]*Block`: each element is decoded
into a freshly allocated zero block, which is how the program's single
decode into a fresh `Blockchain` proceeds (a `null` element, which Go would
keep as a nil pointer, is treated as a decode failure here). -/
def decodeBlocks : List Jval → Option (List Block)
  | [] => some []
  | x :: xs =>
    match decodeBlockFrom zeroBlock x with
    | some b =>
      match x with
      | .jnull => none
      | _ => (decodeBlocks xs).map (fun l => b :: l)
    | none => none

/-- Decoding one object member into a `Blockchain` under construction. -/
def applyChainField (st : Blockchain) (k : String) (v : Jval) :
    Option Blockchain :=
  if keyMatch k "blocks" then
    match v with
    | .jarr l => (decodeBlocks l).map (fun bl => { st with Blocks := bl })
    | .jnull => some { st with Blocks := [] }
    | _ => none
  else some st

/-- `json.Unmarshal` of a document into a fresh `Blockchain`. -/
def decodeBlockchain : Jval → Option Blockchain
  | .jobj members => members.foldlM (fun a kv => applyChainField a kv.1 kv.2) ⟨[]⟩
  | .jnull => some ⟨[]⟩
  | _ => none

/-! ## The parser fuel bound and the top-level document round trip -/

mutual

theorem sizeJ_le_render : ∀ j : Jval, sizeJ j ≤ (renderVal j).length
  | .jstr s => by
    rw [show renderVal (.jstr s) = renderString s from rfl]
    simp [sizeJ, renderString]
  | .jint n => by
    rw [show renderVal (.jint n) = intToChars n from rfl]
    rw [show sizeJ (.jint n) = 1 from rfl]
    unfold intToChars
    split
    · simp
    · exact List.length_pos.mpr (natToChars_ne_nil _)
  | .jbool b => by cases b <;> simp [sizeJ, renderVal]
  | .jnull => by simp [sizeJ, renderVal]
  | .jarr l => by
    rw [show renderVal (.jarr l) = '[' :: (renderElems l ++ [']']) from rfl,
      show sizeJ (.jarr l) = sizeL l + 1 from rfl]
    have := sizeL_le_render l
    simp only [List.length_cons, List.length_append, List.length_singleton]
    omega
  | .jobj l => by
    rw [show renderVal (.jobj l) = '\x7b' :: (renderMembers l ++ ['\x7d'])
        from rfl,
      show sizeJ (.jobj l) = sizeM l + 1 from rfl]
    have := sizeM_le_render l
    simp only [List.length_cons, List.length_append, List.length_singleton]
    omega

theorem sizeL_le_render : ∀ l : List Jval, sizeL l ≤ (renderElems l).length + 1
  | [] => by simp [sizeL, renderElems]
  | [x] => by
    rw [show renderElems [x] = renderVal x from by rw [renderElems]]
    have hsz : sizeL [x] = sizeJ x + 1 := by simp [sizeL]
    rw [hsz]
    have := sizeJ_le_render x
    omega
  | x :: y :: ys => by
    rw [show renderElems (x :: y :: ys) =
        renderVal x ++ ',' :: renderElems (y :: ys) from by rw [renderElems],
      show sizeL (x :: y :: ys) = sizeJ x + 1 + sizeL (y :: ys) from by
        rw [sizeL]]
    have h1 := sizeJ_le_render x
    have h2 := sizeL_le_render (y :: ys)
    simp only [List.length_append, List.length_cons]
    omega

theorem sizeM_le_render :
    ∀ l : List (String × Jval), sizeM l ≤ (renderMembers l).length + 1
  | [] => by simp [sizeM, renderMembers]
  | [(k, v)] => by
    rw [show renderMembers [(k, v)] = renderString k ++ ':' :: renderVal v
        from by rw [renderMembers]]
    have hsz : sizeM [(k, v)] = sizeJ v + 1 := by simp [sizeM]
    rw [hsz]
    have := sizeJ_le_render v
    simp only [List.length_append, List.length_cons]
    omega
  | (k, v) :: m :: ms => by
    rw [show renderMembers ((k, v) :: m :: ms) =
        renderString k ++ ':' :: renderVal v ++ ',' :: renderMembers (m :: ms)
        from by rw [renderMembers],
      show sizeM ((k, v) :: m :: ms) = sizeJ v + 1 + sizeM (m :: ms) from by
        rw [sizeM]]
    have h1 := sizeJ_le_render v
    have h2 := sizeM_le_render (m :: ms)
    simp only [List.length_append, List.length_cons]
    omega

end

/-- The top-level parse inverts the renderer on complete documents. -/
theorem parseTop_render (j : Jval) : parseTop (renderVal j) = some j := by
  unfold parseTop
  have h := (parse_render ((renderVal j).length + 1)).1 j []
    (le_trans (sizeJ_le_render j) (by omega)) trivial
  rw [List.append_nil] at h
  rw [h]
  rfl

/-! ## Decoding inverts encoding on the program's structs -/

theorem decodeCheckout_encode (d : BookCheckout) :
    decodeCheckoutFrom zeroCheckout (encodeCheckout d) = some d := rfl

theorem decodeBlock_encode (b : Block) :
    decodeBlockFrom zeroBlock (encodeBlock b) = some b := rfl

theorem decodeBlocks_encode (l : List Block) :
    decodeBlocks (l.map encodeBlock) = some l := by
  induction l with
  | nil => rfl
  | cons b t ih =>
    show decodeBlocks (encodeBlock b :: t.map encodeBlock) = _
    rw [show decodeBlocks (encodeBlock b :: t.map encodeBlock) =
      (decodeBlocks (t.map encodeBlock)).map (fun l2 => b :: l2) from rfl, ih]
    rfl

theorem decodeChain_encode (bc : Blockchain) :
    decodeBlockchain (encodeChain bc) = some bc := by
  have h1 : applyChainField ⟨[]⟩ "blocks" (.jarr (bc.Blocks.map encodeBlock)) =
      some ⟨bc.Blocks⟩ := by
    unfold applyChainField
    rw [if_pos (by decide)]
    dsimp only
    rw [decodeBlocks_encode]
    rfl
  show List.foldlM (fun a kv => applyChainField a kv.1 kv.2) (⟨[]⟩ : Blockchain)
    [("blocks", .jarr (bc.Blocks.map encodeBlock))] = some bc
  simp [List.foldlM, h1]

/-! ## The blockchain core, translated from `main.go` -/

/-- The compact `json.Marshal` output for a payload, as `generateHash`
inserts into the hash pre-image. -/
def jsonMarshal (d : BookCheckout) : String := ⟨renderVal (encodeCheckout d)⟩

/-- The serialized form of the whole chain, as `saveBlockchain` writes
(modulo indentation, which is whitespace only). -/
def renderChain (bc : Blockchain) : String := ⟨renderVal (encodeChain bc)⟩

/-- The digest `generateHash` stores: lowercase-hex SHA-256 of
`fmt.Sprintf("%d%s%s%s", Pos, Timestamp, json.Marshal(Data), Prevhash)`. -/
def computeHash (b : Block) : String :=
  sha256hex ⟨intToChars b.Pos ++ b.Timestamp.data ++
             (jsonMarshal b.Data).data ++ b.Prevhash.data⟩

/-- `(*Block).generateHash`: writes the digest into the block's `Hash`. -/
def Block.generateHash (b : Block) : Block := { b with Hash := computeHash b }

/-- `CreateBlock`: position one past the previous block, caller-supplied
timestamp (Go takes `time.Now()`), previous hash copied, hash computed. -/
def CreateBlock (prevBlock : Block) (checkoutitem : BookCheckout)
    (now : String) : Block :=
  Block.generateHash ⟨prevBlock.Pos + 1, checkoutitem, now, "", prevBlock.Hash⟩

/-- `(*Block).ValidateHash`: recomputes the hash in place (mutating the
receiver) and compares with the argument; returns the verdict and the
mutated receiver. -/
def Block.ValidateHash (b : Block) (hash : String) : Bool × Block :=
  let b2 := b.generateHash
  (b2.Hash == hash, b2)

/-- `validBlock`: previous-hash linkage, then hash recomputation, then
position increment; returns the verdict and both blocks as left by the
call (only the candidate is ever written to, by `ValidateHash`). -/
def validBlock (block prevBlock : Block) : Bool × Block × Block :=
  if prevBlock.Hash ≠ block.Prevhash then (false, block, prevBlock)
  else
    let r := block.ValidateHash block.Hash
    if !r.1 then (false, r.2, prevBlock)
    else if prevBlock.Pos + 1 ≠ block.Pos then (false, r.2, prevBlock)
    else (true, r.2, prevBlock)

/-- The filesystem visible to the program: the canonical `blockchain.json`
artifact and the `blockchain.json.tmp` scratch file, each either absent or
holding text. -/
structure FS where
  canonical : Option String
  temp : Option String
deriving DecidableEq, Repr

/-- Which I/O steps of a save fail: temp-file creation, serialization onto
the temp file, or the final rename. -/
structure Faults where
  createFails : Bool
  encodeFails : Bool
  renameFails : Bool
deriving DecidableEq, Repr

def noFaults : Faults := ⟨false, false, false⟩

/-- `fileExists`: an `os.Stat` probe of the canonical artifact. -/
def fileExists (fs : FS) : Bool := fs.canonical.isSome

/-- `saveBlockchain`: create the temp file (truncating), encode into it,
remove the canonical file if present, then rename temp over canonical.
Each failing step logs and returns, leaving the state reached so far; a
serialization failure leaves a partially written temp file, modelled as
empty text. -/
def saveBlockchain (f : Faults) (bc : Blockchain) (fs : FS) : FS :=
  if f.createFails then fs
  else if f.encodeFails then { fs with temp := some "" }
  else
    let written : FS := { fs with temp := some (renderChain bc) }
    let removed : FS := { written with canonical := none }
    if f.renameFails then removed
    else { canonical := some (renderChain bc), temp := none }

/-- `loadBlockchain`: read the canonical artifact and unmarshal it;
absence, a parse error, or a decode error all yield `none` (Go's `nil`). -/
def loadBlockchain (fs : FS) : Option Blockchain :=
  match fs.canonical with
  | none => none
  | some s =>
    match parseTop s.data with
    | none => none
    | some j => decodeBlockchain j

/-- `GenesisBlock`: position 0, genesis payload, empty previous hash. -/
def GenesisBlock (now : String) : Block :=
  Block.generateHash ⟨0, ⟨"", "", "", true⟩, now, "", ""⟩

/-- `NewBlockChain`: adopt a persisted non-empty chain if one loads, else
synthesize a fresh genesis chain and save it. -/
def NewBlockChain (f : Faults) (now : String) (fs : FS) : Blockchain × FS :=
  if fileExists fs then
    match loadBlockchain fs with
    | some loaded =>
      if 0 < loaded.Blocks.length then (loaded, fs)
      else (⟨[GenesisBlock now]⟩, saveBlockchain f ⟨[GenesisBlock now]⟩ fs)
    | none => (⟨[GenesisBlock now]⟩, saveBlockchain f ⟨[GenesisBlock now]⟩ fs)
  else (⟨[GenesisBlock now]⟩, saveBlockchain f ⟨[GenesisBlock now]⟩ fs)

/-- The body of `AddBlock` after the candidate exists: the guarded append
and save, or the silent drop. -/
def appendIfValid (f : Faults) (bc : Blockchain) (prevBlock block : Block)
    (fs : FS) : Blockchain × FS :=
  let r := validBlock block prevBlock
  if r.1 then
    let bc2 : Blockchain := ⟨bc.Blocks ++ [r.2.1]⟩
    (bc2, saveBlockchain f bc2 fs)
  else (bc, fs)

/-- `(*Blockchain).AddBlock`: build a candidate from the last block, keep
it only if `validBlock` accepts it, saving on success.  Go indexes
`bc.Blocks[len-1]` unconditionally; the empty chain, on which it panics,
is `none` here. -/
def AddBlock (f : Faults) (bc : Blockchain) (data : BookCheckout)
    (now : String) (fs : FS) : Option (Blockchain × FS) :=
  match bc.Blocks.getLast? with
  | none => none
  | some prevBlock =>
    some (appendIfValid f bc prevBlock (CreateBlock prevBlock data now) fs)

/-- A fresh genesis chain followed by one `AddBlock` per input, each input
supplying the payload and the construction-time timestamp. -/
def runChain (f : Faults) (now0 : String) (fs0 : FS)
    (inputs : List (BookCheckout × String)) : Option (Blockchain × FS) :=
  inputs.foldlM (fun st p => AddBlock f st.1 p.1 p.2 st.2)
    (⟨[GenesisBlock now0]⟩, saveBlockchain f ⟨[GenesisBlock now0]⟩ fs0)

/-! ## Basic facts about hashing and validation -/

/-- The stored hash does not feed into the digest: rewriting it leaves
`computeHash` unchanged. -/
theorem computeHash_hash_irrel (b : Block) (h : String) :
    computeHash { b with Hash := h } = computeHash b := rfl

theorem generateHash_hash (b : Block) : b.generateHash.Hash = computeHash b := rfl

/-- A freshly constructed block stores exactly the digest of its own
fields. -/
theorem createBlock_hash (p : Block) (d : BookCheckout) (t : String) :
    (CreateBlock p d t).Hash = computeHash (CreateBlock p d t) := by
  show computeHash _ = computeHash _
  rw [show CreateBlock p d t =
        { (⟨p.Pos + 1, d, t, "", p.Hash⟩ : Block) with
          Hash := computeHash ⟨p.Pos + 1, d, t, "", p.Hash⟩ } from rfl,
      computeHash_hash_irrel]

theorem createBlock_pos (p : Block) (d : BookCheckout) (t : String) :
    (CreateBlock p d t).Pos = p.Pos + 1 := rfl

theorem createBlock_prevhash (p : Block) (d : BookCheckout) (t : String) :
    (CreateBlock p d t).Prevhash = p.Hash := rfl

theorem createBlock_data (p : Block) (d : BookCheckout) (t : String) :
    (CreateBlock p d t).Data = d := rfl

theorem createBlock_timestamp (p : Block) (d : BookCheckout) (t : String) :
    (CreateBlock p d t).Timestamp = t := rfl

/-- Recomputing the hash of a freshly constructed block is the identity. -/
theorem generateHash_createBlock (p : Block) (d : BookCheckout) (t : String) :
    (CreateBlock p d t).generateHash = CreateBlock p d t := by
  show { CreateBlock p d t with Hash := computeHash (CreateBlock p d t) } =
    CreateBlock p d t
  rw [← createBlock_hash]

/-- A correctly constructed candidate always passes `validBlock`, and the
call leaves both blocks as they were. -/
theorem validBlock_createBlock (p : Block) (d : BookCheckout) (t : String) :
    validBlock (CreateBlock p d t) p = (true, CreateBlock p d t, p) := by
  unfold validBlock Block.ValidateHash
  rw [generateHash_createBlock]
  simp [createBlock_prevhash, createBlock_pos]

/-- On a non-empty chain, `AddBlock` always appends the freshly built
candidate and saves the extended chain. -/
theorem addBlock_success (f : Faults) (bc : Blockchain) (d : BookCheckout)
    (t : String) (fs : FS) (h : bc.Blocks ≠ []) :
    AddBlock f bc d t fs =
      some (⟨bc.Blocks ++ [CreateBlock (bc.Blocks.getLastD zeroBlock) d t]⟩,
        saveBlockchain f
          ⟨bc.Blocks ++ [CreateBlock (bc.Blocks.getLastD zeroBlock) d t]⟩ fs) := by
  cases hg : bc.Blocks.getLast? with
  | none => exact absurd (List.getLast?_eq_none_iff.mp hg) h
  | some prev =>
    unfold AddBlock appendIfValid
    rw [hg, List.getLastD_eq_getLast?, hg]
    dsimp only
    rw [validBlock_createBlock]
    simp

/-- The linkage-and-position invariant of a block list: positions count up
from 0 and each block's `Prevhash` is its predecessor's `Hash`. -/
def ChainInv (l : List Block) : Prop :=
  ∀ i, i < l.length →
    (l.getD i zeroBlock).Pos = (i : Int) ∧
    (0 < i → (l.getD i zeroBlock).Prevhash = (l.getD (i - 1) zeroBlock).Hash)

theorem getLastD_eq_getD (l : List Block) :
    l.getLastD zeroBlock = l.getD (l.length - 1) zeroBlock := by
  rw [List.getLastD_eq_getLast?, List.getLast?_eq_getElem?,
    List.getD_eq_getElem?_getD]

/-- Appending a correctly constructed successor preserves the invariant. -/
theorem chainInv_append (l : List Block) (hne : l ≠ []) (d : BookCheckout)
    (t : String) (hInv : ChainInv l) :
    ChainInv (l ++ [CreateBlock (l.getLastD zeroBlock) d t]) := by
  have hlen : 0 < l.length := List.length_pos.mpr hne
  intro i hi
  rw [List.length_append, List.length_singleton] at hi
  rcases Nat.lt_or_ge i l.length with hu | hu
  · rw [List.getD_append _ _ _ _ hu]
    refine ⟨(hInv i hu).1, fun hpos => ?_⟩
    rw [List.getD_append _ _ _ _ (by omega)]
    exact (hInv i hu).2 hpos
  · have hieq : i = l.length := by omega
    subst hieq
    rw [List.getD_append_right _ _ _ _ (le_refl _), Nat.sub_self]
    constructor
    · show (CreateBlock (l.getLastD zeroBlock) d t).Pos = _
      rw [createBlock_pos, getLastD_eq_getD, (hInv (l.length - 1) (by omega)).1]
      omega
    · intro hpos
      show (CreateBlock (l.getLastD zeroBlock) d t).Prevhash = _
      rw [createBlock_prevhash, getLastD_eq_getD,
        List.getD_append _ _ _ _ (by omega)]

/-- Folding `AddBlock` over any inputs from an invariant-satisfying
non-empty chain succeeds and preserves the invariant, growing the chain by
one block per input. -/
theorem runChain_aux (f : Faults) :
    ∀ (inputs : List (BookCheckout × String)) (st : Blockchain × FS),
      st.1.Blocks ≠ [] → ChainInv st.1.Blocks →
      ∃ bc fs,
        List.foldlM (fun st p => AddBlock f st.1 p.1 p.2 st.2) st inputs =
          some (bc, fs) ∧
        bc.Blocks.length = st.1.Blocks.length + inputs.length ∧
        ChainInv bc.Blocks ∧ bc.Blocks ≠ [] := by
  intro inputs
  induction inputs with
  | nil =>
    intro st hne hInv
    exact ⟨st.1, st.2, rfl, by simp, hInv, hne⟩
  | cons p rest ih =>
    intro st hne hInv
    rw [List.foldlM_cons, addBlock_success f st.1 p.1 p.2 st.2 hne]
    have hstep := ih (⟨st.1.Blocks ++ [CreateBlock (st.1.Blocks.getLastD zeroBlock) p.1 p.2]⟩,
      saveBlockchain f ⟨st.1.Blocks ++ [CreateBlock (st.1.Blocks.getLastD zeroBlock) p.1 p.2]⟩ st.2)
      (by simp) (chainInv_append st.1.Blocks hne p.1 p.2 hInv)
    obtain ⟨bc, fs, hfold, hlen, hinv2, hne2⟩ := hstep
    refine ⟨bc, fs, ?_, ?_, hinv2, hne2⟩
    · simpa using hfold
    · simp at hlen
      simp [hlen]
      omega

/-- The invariant holds of the one-block genesis chain. -/
theorem chainInv_genesis (now0 : String) : ChainInv [GenesisBlock now0] := by
  intro i hi
  simp at hi
  subst hi
  exact ⟨rfl, by omega⟩

/-! ## Concrete data used by witnesses -/

def demoPayload : BookCheckout := ⟨"b1", "alice", "2024-01-01", false⟩

def demoPayload2 : BookCheckout := ⟨"b2", "bob", "2024-01-02", false⟩

def emptyFS : FS := ⟨none, none⟩

def demoInputs : List (BookCheckout × String) :=
  [(demoPayload, "t1"), (demoPayload2, "t2")]

def demoRun : Blockchain × FS :=
  (runChain noFaults "t0" emptyFS demoInputs).getD (⟨[]⟩, emptyFS)

/-- A block whose stored fields do not hash to its stored `Hash`. -/
def tamperedBlock : Block := ⟨1, demoPayload, "t1", "tampered", ""⟩

/-- A predecessor block with empty hash, linking to `tamperedBlock`. -/
def plainPrev : Block := ⟨0, zeroCheckout, "t0", "", ""⟩

/-! ## Claims -/

/-- **C1**: starting from a fresh one-genesis-block chain, every sequence
of `N` `AddBlock` calls (all of which succeed) yields a chain with
`blocks[i].Pos = i` for all `0 ≤ i ≤ N` and
`blocks[i].Prevhash = blocks[i-1].Hash` for all `i > 0`. -/
theorem claim1_chain_invariant (f : Faults) (now0 : String) (fs0 : FS)
    (inputs : List (BookCheckout × String)) (bc : Blockchain) (fs : FS)
    (h : runChain f now0 fs0 inputs = some (bc, fs)) :
    bc.Blocks.length = inputs.length + 1 ∧
    ∀ i, i < bc.Blocks.length →
      (bc.Blocks.getD i zeroBlock).Pos = (i : Int) ∧
      (0 < i → (bc.Blocks.getD i zeroBlock).Prevhash =
        (bc.Blocks.getD (i - 1) zeroBlock).Hash) := by
  obtain ⟨bc2, fs2, hfold, hlen, hinv, _⟩ :=
    runChain_aux f inputs
      (⟨[GenesisBlock now0]⟩, saveBlockchain f ⟨[GenesisBlock now0]⟩ fs0)
      (by simp) (chainInv_genesis now0)
  unfold runChain at h
  rw [hfold] at h
  obtain ⟨h1, _⟩ := Prod.mk.injEq .. ▸ Option.some.inj h
  subst h1
  refine ⟨?_, hinv⟩
  simp at hlen
  omega

theorem claim1_witness :
    demoRun.1.Blocks.length = 3 ∧
    (demoRun.1.Blocks.getD 2 zeroBlock).Pos = (2 : Int) ∧
    (demoRun.1.Blocks.getD 2 zeroBlock).Prevhash =
      (demoRun.1.Blocks.getD 1 zeroBlock).Hash := by
  have h : runChain noFaults "t0" emptyFS demoInputs =
      some (demoRun.1, demoRun.2) := rfl
  have hc := claim1_chain_invariant noFaults "t0" emptyFS demoInputs
    demoRun.1 demoRun.2 h
  have hi : 2 < demoRun.1.Blocks.length := by
    rw [hc.1]; decide
  exact ⟨by rw [hc.1]; decide, (hc.2 2 hi).1, (hc.2 2 hi).2 (by omega)⟩

/-- **C5**: when the candidate block fails `validBlock`, the guarded
append inside `AddBlock` leaves the chain's block sequence (and the
filesystem) unchanged; the candidate is discarded. -/
theorem claim5_invalid_candidate_dropped (f : Faults) (bc : Blockchain)
    (prevBlock block : Block) (fs : FS)
    (h : (validBlock block prevBlock).1 = false) :
    appendIfValid f bc prevBlock block fs = (bc, fs) := by
  unfold appendIfValid
  simp [h]

theorem claim5_witness :
    (validBlock tamperedBlock plainPrev).1 = false ∧
    appendIfValid noFaults ⟨[plainPrev]⟩ plainPrev tamperedBlock emptyFS =
      (⟨[plainPrev]⟩, emptyFS) := by
  have h : (validBlock tamperedBlock plainPrev).1 = false := by decide
  exact ⟨h, claim5_invalid_candidate_dropped noFaults ⟨[plainPrev]⟩
    plainPrev tamperedBlock emptyFS h⟩

/-- **C10**: on any non-empty chain, the candidate `CreateBlock` builds
from the last block always passes `validBlock`, so `AddBlock` never drops
an append: it extends the chain by exactly one block carrying the given
payload (and saves the extended chain). -/
theorem claim10_addBlock_never_drops (f : Faults) (bc : Blockchain)
    (d : BookCheckout) (t : String) (fs : FS) (h : bc.Blocks ≠ []) :
    validBlock (CreateBlock (bc.Blocks.getLastD zeroBlock) d t)
        (bc.Blocks.getLastD zeroBlock) =
      (true, CreateBlock (bc.Blocks.getLastD zeroBlock) d t,
        bc.Blocks.getLastD zeroBlock) ∧
    AddBlock f bc d t fs =
      some (⟨bc.Blocks ++ [CreateBlock (bc.Blocks.getLastD zeroBlock) d t]⟩,
        saveBlockchain f
          ⟨bc.Blocks ++ [CreateBlock (bc.Blocks.getLastD zeroBlock) d t]⟩
          fs) ∧
    (CreateBlock (bc.Blocks.getLastD zeroBlock) d t).Data = d :=
  ⟨validBlock_createBlock _ d t, addBlock_success f bc d t fs h, rfl⟩

theorem claim10_witness :
    validBlock (CreateBlock (([GenesisBlock "t0"] : List Block).getLastD zeroBlock)
        demoPayload "t1") (([GenesisBlock "t0"] : List Block).getLastD zeroBlock) =
      (true, CreateBlock (([GenesisBlock "t0"] : List Block).getLastD zeroBlock)
        demoPayload "t1", ([GenesisBlock "t0"] : List Block).getLastD zeroBlock) ∧
    AddBlock noFaults ⟨[GenesisBlock "t0"]⟩ demoPayload "t1" emptyFS =
      some (⟨[GenesisBlock "t0"] ++
          [CreateBlock (([GenesisBlock "t0"] : List Block).getLastD zeroBlock)
            demoPayload "t1"]⟩,
        saveBlockchain noFaults
          ⟨[GenesisBlock "t0"] ++
            [CreateBlock (([GenesisBlock "t0"] : List Block).getLastD zeroBlock)
              demoPayload "t1"]⟩ emptyFS) ∧
    (CreateBlock (([GenesisBlock "t0"] : List Block).getLastD zeroBlock)
      demoPayload "t1").Data = demoPayload :=
  claim10_addBlock_never_drops noFaults ⟨[GenesisBlock "t0"]⟩ demoPayload "t1"
    emptyFS (by simp)

/-- **C4** (amended): `validBlock` never touches the previous block and
never touches the candidate's position, payload, timestamp or previous
hash; the candidate's stored `Hash`, however, is either left unchanged or
overwritten with the recomputed digest — the overwrite happens on the
hash-mismatch failure path, so validation is not transient for the stored
hash field. -/
theorem claim4_validation_frame (block prevBlock : Block) :
    (validBlock block prevBlock).2.2 = prevBlock ∧
    (validBlock block prevBlock).2.1.Pos = block.Pos ∧
    (validBlock block prevBlock).2.1.Data = block.Data ∧
    (validBlock block prevBlock).2.1.Timestamp = block.Timestamp ∧
    (validBlock block prevBlock).2.1.Prevhash = block.Prevhash ∧
    ((validBlock block prevBlock).2.1.Hash = block.Hash ∨
      (validBlock block prevBlock).2.1.Hash = computeHash block) := by
  unfold validBlock Block.ValidateHash Block.generateHash
  by_cases h1 : prevBlock.Hash ≠ block.Prevhash
  · simp [h1]
  · simp only [h1, if_false, ite_not]
    split
    · simp
    · split <;> simp

/-- **C4** counterexample: on a candidate whose stored hash does not match
its recomputed digest (with matching previous-hash linkage), `validBlock`
returns with the candidate's stored `Hash` changed — validation mutated
the block's state. -/
theorem claim4_counterexample :
    (validBlock tamperedBlock plainPrev).2.1.Hash ≠ tamperedBlock.Hash ∧
    (validBlock tamperedBlock plainPrev).1 = false := by
  constructor <;> decide

/-- **C2** (amended): a failure to create the temp file or to serialize
leaves the canonical artifact exactly in its prior state; but a failure of
the rename leaves the canonical artifact removed (the code deletes it
before renaming), so after a failed rename the canonical artifact is
absent rather than in its prior state.  No failure mode ever leaves a
partially overwritten canonical artifact. -/
theorem claim2_save_failure_frame (f : Faults) (bc : Blockchain) (fs : FS) :
    (f.createFails = true → saveBlockchain f bc fs = fs) ∧
    (f.createFails = false → f.encodeFails = true →
      (saveBlockchain f bc fs).canonical = fs.canonical) ∧
    (f.createFails = false → f.encodeFails = false → f.renameFails = true →
      (saveBlockchain f bc fs).canonical = none) := by
  refine ⟨fun h1 => ?_, fun h1 h2 => ?_, fun h1 h2 h3 => ?_⟩ <;>
    simp [saveBlockchain, h1]
  · simp [h2]
  · simp [h2, h3]

def oldFS : FS := ⟨some "old", none⟩

def renameFaults : Faults := ⟨false, false, true⟩

/-- **C2** counterexample: a chain is saved onto a filesystem whose
canonical artifact holds `"old"`; the rename step fails; afterwards the
canonical artifact is gone — not in its prior state. -/
theorem claim2_counterexample :
    oldFS.canonical = some "old" ∧
    (saveBlockchain renameFaults ⟨[plainPrev]⟩ oldFS).canonical = none ∧
    (saveBlockchain renameFaults ⟨[plainPrev]⟩ oldFS).canonical ≠
      oldFS.canonical := by
  exact ⟨rfl, rfl, by decide⟩

theorem claim2_witness :
    saveBlockchain ⟨true, false, false⟩ ⟨[plainPrev]⟩ oldFS = oldFS ∧
    (saveBlockchain ⟨false, true, false⟩ ⟨[plainPrev]⟩ oldFS).canonical =
      oldFS.canonical ∧
    (saveBlockchain ⟨false, false, true⟩ ⟨[plainPrev]⟩ oldFS).canonical =
      none :=
  ⟨(claim2_save_failure_frame ⟨true, false, false⟩ ⟨[plainPrev]⟩ oldFS).1 rfl,
   (claim2_save_failure_frame ⟨false, true, false⟩ ⟨[plainPrev]⟩ oldFS).2.1
     rfl rfl,
   (claim2_save_failure_frame ⟨false, false, true⟩ ⟨[plainPrev]⟩ oldFS).2.2
     rfl rfl rfl⟩

/-! ## C6: the hash definition -/

def hexAlphabet : List Char := "0123456789abcdef".data

theorem hexDigitChar_mem (n : Nat) : hexDigitChar n ∈ hexAlphabet := by
  unfold hexDigitChar
  split <;> decide

theorem hexEncode_mem (l : List Nat) (c : Char) (h : c ∈ hexEncode l) :
    c ∈ hexAlphabet := by
  unfold hexEncode at h
  simp only [List.mem_flatMap] at h
  obtain ⟨b, _, hb⟩ := h
  simp only [List.mem_cons, List.mem_singleton] at hb
  rcases hb with h1 | h1 | h1
  · exact h1 ▸ hexDigitChar_mem _
  · exact h1 ▸ hexDigitChar_mem _
  · cases h1

theorem sha256bytes_length (msg : List Nat) : (sha256bytes msg).length = 32 := by
  simp [sha256bytes, u32be]

theorem hexEncode_length (l : List Nat) : (hexEncode l).length = 2 * l.length := by
  induction l with
  | nil => rfl
  | cons b t ih =>
    show (hexEncode (b :: t)).length = _
    simp only [hexEncode, List.flatMap_cons] at *
    simp [ih]
    omega

/-- **C6**: `generateHash` stores the lowercase-hex SHA-256 digest of the
concatenation of the decimal position, the timestamp, the JSON-serialized
payload and the previous hash, in that order; it depends on nothing else
(in particular not on the stored hash), so identical field values always
yield the identical digest; and the digest is a 64-character string over
the lowercase hexadecimal alphabet. -/
theorem claim6_hash_definition :
    (∀ b : Block, computeHash b =
      ⟨hexEncode (sha256bytes (strBytes
        ⟨intToChars b.Pos ++ b.Timestamp.data ++
         (jsonMarshal b.Data).data ++ b.Prevhash.data⟩))⟩) ∧
    (∀ p d t h1 h2 ph,
      computeHash ⟨p, d, t, h1, ph⟩ = computeHash ⟨p, d, t, h2, ph⟩) ∧
    (∀ b : Block, (computeHash b).length = 64 ∧
      ∀ c ∈ (computeHash b).data, c ∈ hexAlphabet) := by
  refine ⟨fun b => rfl, fun p d t h1 h2 ph => rfl, fun b => ⟨?_, ?_⟩⟩
  · show (hexEncode (sha256bytes _)).length = 64
    rw [hexEncode_length, sha256bytes_length]
  · intro c hc
    exact hexEncode_mem _ c hc

theorem claim6_witness :
    computeHash plainPrev =
      ⟨hexEncode (sha256bytes (strBytes
        ⟨intToChars plainPrev.Pos ++ plainPrev.Timestamp.data ++
         (jsonMarshal plainPrev.Data).data ++ plainPrev.Prevhash.data⟩))⟩ ∧
    (computeHash plainPrev).length = 64 ∧
    (computeHash plainPrev).data.getD 0 'x' ∈ hexAlphabet :=
  ⟨claim6_hash_definition.1 plainPrev,
   (claim6_hash_definition.2.2 plainPrev).1,
   (claim6_hash_definition.2.2 plainPrev).2 _ (by decide)⟩

/-! ## C7 and C8: chain initialization -/

/-- A genesis block stores exactly the digest of its own fields. -/
theorem genesisBlock_hash (now : String) :
    (GenesisBlock now).Hash = computeHash (GenesisBlock now) := by
  show computeHash _ = computeHash _
  rw [show GenesisBlock now =
        { (⟨0, ⟨"", "", "", true⟩, now, "", ""⟩ : Block) with
          Hash := computeHash ⟨0, ⟨"", "", "", true⟩, now, "", ""⟩ } from rfl,
      computeHash_hash_irrel]

/-- **C7** (amended): whenever `NewBlockChain` takes the fresh-synthesis
path (no canonical artifact, or it fails to load, or it loads an empty
chain), the resulting chain is a single genesis block with position 0,
empty previous hash, `IsGenesis` payload mark, and a stored hash equal to
the recomputed digest of its own fields.  A chain adopted from a persisted
snapshot carries whatever the snapshot held, without re-validation. -/
theorem claim7_fresh_genesis (f : Faults) (now : String) (fs : FS)
    (h : fileExists fs = false ∨ loadBlockchain fs = none ∨
      (∃ loaded, loadBlockchain fs = some loaded ∧ loaded.Blocks = [])) :
    (NewBlockChain f now fs).1.Blocks.length = 1 ∧
    ((NewBlockChain f now fs).1.Blocks.getD 0 zeroBlock).Pos = 0 ∧
    ((NewBlockChain f now fs).1.Blocks.getD 0 zeroBlock).Prevhash = "" ∧
    ((NewBlockChain f now fs).1.Blocks.getD 0 zeroBlock).Data.IsGenesis = true ∧
    computeHash ((NewBlockChain f now fs).1.Blocks.getD 0 zeroBlock) =
      ((NewBlockChain f now fs).1.Blocks.getD 0 zeroBlock).Hash := by
  have hfresh : (NewBlockChain f now fs).1 = ⟨[GenesisBlock now]⟩ := by
    unfold NewBlockChain
    rcases h with h1 | h1 | ⟨loaded, h1, h2⟩
    · simp [h1]
    · rcases hex : fileExists fs with _ | _ <;> simp [hex, h1]
    · rcases hex : fileExists fs with _ | _ <;> simp [hex, h1, h2]
  rw [hfresh]
  exact ⟨rfl, rfl, rfl, rfl, (genesisBlock_hash now).symm⟩

theorem claim7_witness :
    (NewBlockChain noFaults "g" emptyFS).1.Blocks.length = 1 ∧
    ((NewBlockChain noFaults "g" emptyFS).1.Blocks.getD 0 zeroBlock).Pos = 0 ∧
    ((NewBlockChain noFaults "g" emptyFS).1.Blocks.getD 0 zeroBlock).Prevhash = "" ∧
    ((NewBlockChain noFaults "g" emptyFS).1.Blocks.getD 0 zeroBlock).Data.IsGenesis
      = true ∧
    computeHash ((NewBlockChain noFaults "g" emptyFS).1.Blocks.getD 0 zeroBlock) =
      ((NewBlockChain noFaults "g" emptyFS).1.Blocks.getD 0 zeroBlock).Hash :=
  claim7_fresh_genesis noFaults "g" emptyFS (.inl rfl)

/-- A persisted artifact holding a one-block chain whose block is not a
genesis block: position 5, no genesis mark, no stored hash. -/
def oddArtifact : String :=
  ⟨renderVal (.jobj [("blocks", .jarr [.jobj [("Pos", .jint 5)]])])⟩

def oddFS : FS := ⟨some oddArtifact, none⟩

/-- **C7** counterexample: `NewBlockChain` adopts this persisted snapshot
verbatim, so its first block has position 5, no genesis mark, and a stored
hash (empty) that does not match its recomputed digest — the claimed
genesis properties fail for adopted chains. -/
theorem claim7_counterexample :
    ((NewBlockChain noFaults "g" oddFS).1.Blocks.getD 0 zeroBlock).Pos = 5 ∧
    ((NewBlockChain noFaults "g" oddFS).1.Blocks.getD 0 zeroBlock).Data.IsGenesis
      = false := by
  constructor <;> decide

/-- **C8**: `NewBlockChain` is a two-way case split: a canonical artifact
that loads as a non-empty block sequence is adopted verbatim (the
filesystem untouched, no validation applied); in every other case —
artifact absent, unreadable or undeserializable (`loadBlockchain` yields
`none`), or deserializing to an empty sequence — it returns exactly one
genesis block and immediately saves it, which on fault-free I/O lands the
serialized chain in the canonical artifact. -/
theorem claim8_init_cases (f : Faults) (now : String) (fs : FS) :
    (∀ loaded, fileExists fs = true → loadBlockchain fs = some loaded →
      0 < loaded.Blocks.length → NewBlockChain f now fs = (loaded, fs)) ∧
    ((fileExists fs = false ∨ loadBlockchain fs = none ∨
      (∃ loaded, loadBlockchain fs = some loaded ∧ loaded.Blocks = [])) →
      NewBlockChain f now fs =
        (⟨[GenesisBlock now]⟩, saveBlockchain f ⟨[GenesisBlock now]⟩ fs)) ∧
    (∀ bc fs2, (saveBlockchain noFaults bc fs2).canonical =
      some (renderChain bc)) := by
  refine ⟨fun loaded h1 h2 h3 => ?_, fun h => ?_, fun bc fs2 => rfl⟩
  · unfold NewBlockChain
    simp [h1, h2, h3]
  · unfold NewBlockChain
    rcases h with h1 | h1 | ⟨loaded, h1, h2⟩
    · simp [h1]
    · rcases hex : fileExists fs with _ | _ <;> simp [hex, h1]
    · rcases hex : fileExists fs with _ | _ <;> simp [hex, h1, h2]

/-! ## C3: tamper detection -/

/-- **C3** (amended): for a candidate correctly constructed from `prev`,
mutating its position, mutating its previous-hash field, or mutating
`prev`'s hash always makes `validBlock` reject; mutating its timestamp or
its payload makes `validBlock` reject exactly when the recomputed digest
differs from the stored one — which SHA-256 collision resistance makes
overwhelmingly likely, but which is not unconditional (see the
counterexample). -/
theorem claim3_tamper_detection (prev : Block) (d : BookCheckout) (t : String) :
    (∀ p2, p2 ≠ prev.Pos + 1 →
      (validBlock { CreateBlock prev d t with Pos := p2 } prev).1 = false) ∧
    (∀ ph2, ph2 ≠ prev.Hash →
      (validBlock { CreateBlock prev d t with Prevhash := ph2 } prev).1 = false) ∧
    (∀ h2, h2 ≠ prev.Hash →
      (validBlock (CreateBlock prev d t) { prev with Hash := h2 }).1 = false) ∧
    (∀ t2, computeHash { CreateBlock prev d t with Timestamp := t2 } ≠
        computeHash (CreateBlock prev d t) →
      (validBlock { CreateBlock prev d t with Timestamp := t2 } prev).1 = false) ∧
    (∀ d2, computeHash { CreateBlock prev d t with Data := d2 } ≠
        computeHash (CreateBlock prev d t) →
      (validBlock { CreateBlock prev d t with Data := d2 } prev).1 = false) := by
  refine ⟨fun p2 hp => ?_, fun ph2 hp => ?_, fun h2 hp => ?_,
    fun t2 hp => ?_, fun d2 hp => ?_⟩
  · show (validBlock { CreateBlock prev d t with Pos := p2 } prev).1 = false
    unfold validBlock Block.ValidateHash Block.generateHash
    have hprev : ({ CreateBlock prev d t with Pos := p2 } : Block).Prevhash =
      prev.Hash := createBlock_prevhash prev d t
    have hpos : ({ CreateBlock prev d t with Pos := p2 } : Block).Pos = p2 := rfl
    simp only [hprev, ne_eq, not_true_eq_false, if_false, ite_not, hpos]
    split
    · simp [Ne.symm hp]
    · simp
  · show (validBlock { CreateBlock prev d t with Prevhash := ph2 } prev).1 = false
    unfold validBlock
    have hprev : ({ CreateBlock prev d t with Prevhash := ph2 } : Block).Prevhash =
      ph2 := rfl
    simp [hprev, Ne.symm hp]
  · show (validBlock (CreateBlock prev d t) { prev with Hash := h2 }).1 = false
    unfold validBlock
    have hprev : (CreateBlock prev d t).Prevhash = prev.Hash :=
      createBlock_prevhash prev d t
    simp [hprev, hp]
  · show (validBlock { CreateBlock prev d t with Timestamp := t2 } prev).1 = false
    unfold validBlock Block.ValidateHash Block.generateHash
    have hprev : ({ CreateBlock prev d t with Timestamp := t2 } : Block).Prevhash =
      prev.Hash := createBlock_prevhash prev d t
    have hHash : ({ CreateBlock prev d t with Timestamp := t2 } : Block).Hash =
      computeHash (CreateBlock prev d t) := createBlock_hash prev d t
    have hre : computeHash ({ CreateBlock prev d t with Timestamp := t2 } : Block) ≠
      ({ CreateBlock prev d t with Timestamp := t2 } : Block).Hash := hHash ▸ hp
    simp [hprev, hre]
    split <;> rfl
  · show (validBlock { CreateBlock prev d t with Data := d2 } prev).1 = false
    unfold validBlock Block.ValidateHash Block.generateHash
    have hprev : ({ CreateBlock prev d t with Data := d2 } : Block).Prevhash =
      prev.Hash := createBlock_prevhash prev d t
    have hHash : ({ CreateBlock prev d t with Data := d2 } : Block).Hash =
      computeHash (CreateBlock prev d t) := createBlock_hash prev d t
    have hre : computeHash ({ CreateBlock prev d t with Data := d2 } : Block) ≠
      ({ CreateBlock prev d t with Data := d2 } : Block).Hash := hHash ▸ hp
    simp [hprev, hre]
    split <;> rfl

theorem claim3_witness :
    (validBlock { CreateBlock plainPrev demoPayload "t1" with Pos := 99 }
      plainPrev).1 = false ∧
    (validBlock { CreateBlock plainPrev demoPayload "t1" with Prevhash := "x" }
      plainPrev).1 = false ∧
    (validBlock (CreateBlock plainPrev demoPayload "t1")
      { plainPrev with Hash := "x" }).1 = false ∧
    (validBlock { CreateBlock plainPrev demoPayload "t1" with Timestamp := "t9" }
      plainPrev).1 = false ∧
    (validBlock { CreateBlock plainPrev demoPayload "t1" with
      Data := demoPayload2 } plainPrev).1 = false :=
  ⟨(claim3_tamper_detection plainPrev demoPayload "t1").1 99 (by decide),
   (claim3_tamper_detection plainPrev demoPayload "t1").2.1 "x" (by decide),
   (claim3_tamper_detection plainPrev demoPayload "t1").2.2.1 "x" (by decide),
   (claim3_tamper_detection plainPrev demoPayload "t1").2.2.2.1 "t9" (by decide),
   (claim3_tamper_detection plainPrev demoPayload "t1").2.2.2.2 demoPayload2
     (by decide)⟩

/-- Timestamps of unbounded length, pairwise distinct. -/
def stampText (n : Nat) : String := ⟨List.replicate n 'a'⟩

/-- The digest a candidate built from `plainPrev` carries when its
timestamp is `stampText n`. -/
def stampDigest (n : Nat) : List Nat :=
  sha256bytes (strBytes ⟨intToChars (plainPrev.Pos + 1) ++ (stampText n).data ++
    (jsonMarshal demoPayload).data ++ "".data⟩)

theorem u32be_lt (x : Nat) : ∀ b ∈ u32be x, b < 256 := by
  intro b hb
  simp only [u32be, List.mem_cons, List.not_mem_nil, or_false] at hb
  rcases hb with rfl | rfl | rfl | rfl <;> exact Nat.mod_lt _ (by norm_num)

theorem sha256bytes_mem_lt (msg : List Nat) (b : Nat)
    (hb : b ∈ sha256bytes msg) : b < 256 := by
  simp only [sha256bytes, List.mem_append] at hb
  rcases hb with ((((((h | h) | h) | h) | h) | h) | h) | h <;>
    exact u32be_lt _ _ h

theorem stampDigest_getD_lt (n i : Nat) : (stampDigest n).getD i 0 < 256 := by
  rcases Nat.lt_or_ge i (stampDigest n).length with hi | hi
  · have hmem : (stampDigest n).getD i 0 ∈ stampDigest n := by
      rw [List.getD_eq_getElem?_getD, List.getElem?_eq_getElem hi]
      exact List.getElem_mem hi
    exact sha256bytes_mem_lt _ _ hmem
  · rw [List.getD_eq_getElem?_getD, List.getElem?_eq_none hi]
    decide

theorem stampDigest_length (n : Nat) : (stampDigest n).length = 32 :=
  sha256bytes_length _

/-- The digest family, viewed into the finite type of 32-byte vectors. -/
def stampMap (n : Nat) (i : Fin 32) : Fin 256 :=
  ⟨(stampDigest n).getD i.val 0, stampDigest_getD_lt n i.val⟩

theorem list_eq_of_getD {l1 l2 : List Nat} (h1 : l1.length = 32)
    (h2 : l2.length = 32)
    (h : ∀ i : Fin 32, l1.getD i.val 0 = l2.getD i.val 0) : l1 = l2 := by
  apply List.ext_getElem (by omega)
  intro i hi1 hi2
  have hh := h ⟨i, by omega⟩
  rwa [List.getD_eq_getElem?_getD, List.getD_eq_getElem?_getD,
    List.getElem?_eq_getElem hi1, List.getElem?_eq_getElem hi2] at hh

/-- **C3** counterexample: the claim quantifies over every mutation of
every correctly constructed candidate, and at that generality it is
false: since SHA-256 has finitely many digests and there are infinitely
many timestamps, two distinct timestamps collide, and the corresponding
timestamp mutation leaves `validBlock` accepting the tampered block.  (No
explicit collision is known, so the witness pair exists non-constructively;
this is exactly why tamper detection is only collision-resistance strong.) -/
theorem claim3_counterexample :
    ∃ (prev : Block) (d : BookCheckout) (t t2 : String),
      t2 ≠ t ∧
      (validBlock { CreateBlock prev d t with Timestamp := t2 } prev).1 =
        true := by
  obtain ⟨m, n, hmn, hg⟩ := Finite.exists_ne_map_eq_of_infinite stampMap
  have hdig : stampDigest n = stampDigest m := by
    refine list_eq_of_getD (stampDigest_length n) (stampDigest_length m)
      fun i => ?_
    have hh := congrFun hg i
    simpa [stampMap, Fin.ext_iff] using hh.symm
  refine ⟨plainPrev, demoPayload, stampText m, stampText n, ?_, ?_⟩
  · intro he
    apply hmn
    have hl := congrArg String.length he
    simpa [stampText, String.length] using hl.symm
  · have hch : computeHash ({ CreateBlock plainPrev demoPayload (stampText m)
        with Timestamp := stampText n } : Block) =
      ({ CreateBlock plainPrev demoPayload (stampText m)
        with Timestamp := stampText n } : Block).Hash := by
      show (⟨hexEncode (stampDigest n)⟩ : String) = ⟨hexEncode (stampDigest m)⟩
      rw [hdig]
    unfold validBlock Block.ValidateHash Block.generateHash
    have hprev : ({ CreateBlock plainPrev demoPayload (stampText m)
        with Timestamp := stampText n } : Block).Prevhash = plainPrev.Hash :=
      createBlock_prevhash plainPrev demoPayload (stampText m)
    have hpos : ({ CreateBlock plainPrev demoPayload (stampText m)
        with Timestamp := stampText n } : Block).Pos = plainPrev.Pos + 1 :=
      createBlock_pos plainPrev demoPayload (stampText m)
    simp [hprev, hpos, hch]
    simp [createBlock_prevhash, createBlock_pos]

theorem claim8_witness :
    NewBlockChain noFaults "g" oddFS =
      (⟨[⟨5, zeroCheckout, "", "", ""⟩]⟩, oddFS) ∧
    NewBlockChain noFaults "g" emptyFS =
      (⟨[GenesisBlock "g"]⟩,
        saveBlockchain noFaults ⟨[GenesisBlock "g"]⟩ emptyFS) ∧
    (saveBlockchain noFaults ⟨[GenesisBlock "g"]⟩ emptyFS).canonical =
      some (renderChain ⟨[GenesisBlock "g"]⟩) :=
  ⟨(claim8_init_cases noFaults "g" oddFS).1 ⟨[⟨5, zeroCheckout, "", "", ""⟩]⟩
      rfl (by decide) (by decide),
   (claim8_init_cases noFaults "g" emptyFS).2.1 (.inl rfl),
   (claim8_init_cases noFaults "g" emptyFS).2.2 ⟨[GenesisBlock "g"]⟩ emptyFS⟩

/-- **C9**: a successful save (no I/O faults) followed by a load
reproduces exactly the chain that was saved: same block count and, at
every index, identical position, timestamp, hash, previous-hash and
payload fields — serialization followed by deserialization is the
identity on chains. -/
theorem claim9_save_load_roundtrip (bc : Blockchain) (fs : FS) :
    loadBlockchain (saveBlockchain noFaults bc fs) = some bc := by
  show loadBlockchain { canonical := some (renderChain bc), temp := none } =
    some bc
  show (match parseTop (renderChain bc).data with
    | none => none
    | some j => decodeBlockchain j) = some bc
  rw [show (renderChain bc).data = renderVal (encodeChain bc) from rfl,
    parseTop_render]
  exact decodeChain_encode bc

end ChainSpec